import Mathlib

/-
  Verification development for the nix-du core (src/depgraph.rs, src/opt.rs).

  The Rust code is shallowly embedded:
  * a `Derivation` is a record of a byte path, a u64 size (modelled as `Nat`,
    with u64 arithmetic made explicit through `wadd`/`wsub`, which reduce
    modulo 2^64), and a root flag;
  * the petgraph `Graph` is a list of node weights (index = position) plus a
    list of directed edges in insertion order; petgraph 0.4 iterates the
    neighbors of a node from the most recently inserted edge backwards;
  * the filesystem is a collaborator record (`FS`) yielding symlink metadata,
    subtree walks and directory listings, each fallible with an error code;
  * `&mut` state threading with `?` early returns becomes explicit
    state-passing folds that stop at the first error but keep the state
    mutated so far (`foldAbortE` / `foldAbortS`).
-/

namespace NixDu

/-- 2^64, the modulus of u64 arithmetic. -/
def U64 : Nat := 18446744073709551616

theorem U64_pos : 0 < U64 := by decide

/-- Wrapping u64 addition. -/
def wadd (a b : Nat) : Nat := (a + b) % U64

/-- Wrapping u64 subtraction. -/
def wsub (a b : Nat) : Nat := (a + (U64 - b % U64)) % U64

theorem wsub_eq_sub (a b : Nat) (hba : b ≤ a) (ha : a < U64) : wsub a b = a - b := by
  unfold wsub
  have hb : b < U64 := lt_of_le_of_lt hba ha
  rw [Nat.mod_eq_of_lt hb]
  have h1 : a + (U64 - b) = (a - b) + U64 := by omega
  rw [h1, Nat.add_mod_right, Nat.mod_eq_of_lt (by omega)]

/-- The bytes of an ASCII string literal, as natural numbers. -/
def strBytes (s : String) : List Nat := s.data.map Char.toNat

/-- Node payload of the dependency graph (struct Derivation in depgraph.rs). -/
structure Derivation where
  path : List Nat
  size : Nat
  is_root : Bool
deriving DecidableEq

/-- Derivation::dummy. -/
def Derivation.dummy : Derivation := ⟨[], 0, false⟩

instance : Inhabited Derivation := ⟨Derivation.dummy⟩

/-- memchr::memchr: index of the first occurrence of byte b. -/
def memchr (b : Nat) (l : List Nat) : Option Nat := l.findIdx? (fun c => c = b)

/-- memchr::memrchr: index of the last occurrence of byte b. -/
def memrchr (b : Nat) (l : List Nat) : Option Nat :=
  (l.reverse.findIdx? (fun c => c = b)).map (fun i => l.length - 1 - i)

/-- Derivation::name: strip everything upto the last `/` (byte 47), then
everything upto the first `-` (byte 45) of what remains; roots keep the
whole path. -/
def Derivation.name (d : Derivation) : List Nat :=
  if d.is_root then d.path
  else
    match memrchr 47 d.path with
    | none => d.path
    | some i =>
      let whole := d.path.drop (i + 1)
      match memchr 45 whole with
      | none => whole
      | some j => whole.drop (j + 1)

/-- Derivation::path_as_os_str: the path, defined only when it starts with
byte `/` (47). -/
def Derivation.path_as_os_str (d : Derivation) : Option (List Nat) :=
  if d.path.head? = some 47 then some d.path else none

theorem memchr_eq_none_of_not_mem (b : Nat) (l : List Nat) (h : b ∉ l) :
    memchr b l = none := by
  unfold memchr
  rw [List.findIdx?_eq_none_iff]
  intro x hx
  simp only [decide_eq_false_iff_not]
  intro hxb; exact h (hxb ▸ hx)

theorem memrchr_eq_none_of_not_mem (b : Nat) (l : List Nat) (h : b ∉ l) :
    memrchr b l = none := by
  unfold memrchr
  rw [List.findIdx?_eq_none_iff.mpr]
  · rfl
  · intro x hx
    simp only [decide_eq_false_iff_not]
    intro hxb
    exact h (hxb ▸ (List.mem_reverse.mp hx))

/-! ## The dependency graph model -/

/-- Directed graph of Derivations: node index = position in `nodes`; `edges`
holds `(source, target)` index pairs in insertion order (petgraph Graph). -/
structure DepGraph where
  nodes : List Derivation
  edges : List (Nat × Nat)
deriving DecidableEq

/-- petgraph 0.4 iterates the outgoing neighbors of a node starting from the
most recently inserted edge. -/
def DepGraph.neighbors (g : DepGraph) (n : Nat) : List Nat :=
  ((g.edges.filter (fun e => e.1 == n)).map (fun e => e.2)).reverse

/-- petgraph's representation invariant: edge endpoints are valid indices
(Graph::add_edge panics otherwise). -/
def edgesWf (g : DepGraph) : Prop :=
  ∀ e ∈ g.edges, e.1 < g.nodes.length ∧ e.2 < g.nodes.length

instance (g : DepGraph) : Decidable (edgesWf g) := by
  unfold edgesWf; infer_instance

/-- DepInfos: a graph together with the recorded root indices. -/
structure DepInfos where
  graph : DepGraph
  roots : List Nat
deriving DecidableEq

/-- DepInfos::new_from_graph: scan all nodes in index order and record those
with the root flag set. -/
def DepInfos.new_from_graph (g : DepGraph) : DepInfos :=
  { graph := g,
    roots := (List.range g.nodes.length).filter
      (fun i => (g.nodes.getD i default).is_root) }

/-- The set of node indices whose weight has `is_root` set
(`from_nodes` in roots_attr_coherent). -/
def rootFlagged (g : DepGraph) : Finset Nat :=
  (Finset.range g.nodes.length).filter
    (fun i => (g.nodes.getD i default).is_root = true)

/-- The set of node indices with no incoming edge
(`graph.externals(Incoming)`, `from_structure` in roots_attr_coherent). -/
def noIncoming (g : DepGraph) : Finset Nat :=
  (Finset.range g.nodes.length).filter (fun i => ∀ e ∈ g.edges, e.2 ≠ i)

/-- DepInfos::roots_attr_coherent: the recorded roots are exactly the flagged
nodes, and every flagged node is structurally a source. -/
def DepInfos.roots_attr_coherent (di : DepInfos) : Prop :=
  di.roots.toFinset = rootFlagged di.graph ∧
    rootFlagged di.graph ⊆ noIncoming di.graph

instance (di : DepInfos) : Decidable di.roots_attr_coherent := by
  unfold DepInfos.roots_attr_coherent; infer_instance

theorem new_from_graph_toFinset (g : DepGraph) :
    (DepInfos.new_from_graph g).roots.toFinset = rootFlagged g := by
  ext x
  simp [DepInfos.new_from_graph, rootFlagged, List.mem_filter]

/-! ## Claims C8 and C4 -/

/-- Claim C8: Derivation::name returns the whole path for roots, the suffix
after the last slash and the first dash otherwise, falling back to larger
slices when a delimiter is missing. -/
theorem name_spec (d : Derivation) :
    (d.is_root = true → d.name = d.path) ∧
    (d.is_root = false → d.path = strBytes "/nix/store/abcdef-foo-1.0" →
      d.name = strBytes "foo-1.0") ∧
    ((47 : Nat) ∉ d.path → d.name = d.path) ∧
    (d.is_root = false → ∀ i, memrchr 47 d.path = some i →
      (45 : Nat) ∉ d.path.drop (i + 1) → d.name = d.path.drop (i + 1)) := by
  refine ⟨?_, ?_, ?_, ?_⟩
  · intro h
    unfold Derivation.name
    rw [if_pos h]
  · intro h1 h2
    cases d with
    | mk p s r =>
      simp only at h1 h2
      subst h1 h2
      rfl
  · intro h
    unfold Derivation.name
    rcases hr : d.is_root with _ | _
    · rw [if_neg (by simp [hr]), memrchr_eq_none_of_not_mem 47 d.path h]
    · rw [if_pos (by simp [hr])]
  · intro h1 i h2 h3
    unfold Derivation.name
    rw [if_neg (by simp [h1])]
    simp only [h2, memchr_eq_none_of_not_mem 45 _ h3]

/-- Closed instance of name_spec, checking the hash-stripping case on the
spec's example path. -/
theorem name_spec_witness :
    (⟨strBytes "/nix/store/abcdef-foo-1.0", 12, false⟩ : Derivation).name =
      strBytes "foo-1.0" :=
  (name_spec _).2.1 rfl rfl

/-- Claim C4: for a well-formed graph (one where flagged roots have no
incoming edges), new_from_graph records exactly the flagged nodes as roots,
and the coherence invariant holds. -/
theorem new_from_graph_coherent (g : DepGraph)
    (hwf : ∀ i, i < g.nodes.length → (g.nodes.getD i default).is_root = true →
      ∀ e ∈ g.edges, e.2 ≠ i) :
    (DepInfos.new_from_graph g).roots.toFinset = rootFlagged g ∧
    (DepInfos.new_from_graph g).roots_attr_coherent := by
  refine ⟨new_from_graph_toFinset g, new_from_graph_toFinset g, ?_⟩
  intro x hx
  rw [rootFlagged, Finset.mem_filter, Finset.mem_range] at hx
  rw [noIncoming, Finset.mem_filter, Finset.mem_range]
  exact ⟨hx.1, hwf x hx.1 hx.2⟩

/-- Closed instance of new_from_graph_coherent on a two-node graph with one
root and one edge out of the root. -/
theorem new_from_graph_coherent_witness :
    (∀ i, i < (DepGraph.mk [⟨strBytes "/r", 0, true⟩, ⟨strBytes "/s/h-a", 5, false⟩]
        [(0, 1)]).nodes.length →
      ((DepGraph.mk [⟨strBytes "/r", 0, true⟩, ⟨strBytes "/s/h-a", 5, false⟩]
        [(0, 1)]).nodes.getD i default).is_root = true →
      ∀ e ∈ (DepGraph.mk [⟨strBytes "/r", 0, true⟩, ⟨strBytes "/s/h-a", 5, false⟩]
        [(0, 1)]).edges, e.2 ≠ i) ∧
    ((DepInfos.new_from_graph (DepGraph.mk
        [⟨strBytes "/r", 0, true⟩, ⟨strBytes "/s/h-a", 5, false⟩]
        [(0, 1)])).roots.toFinset = rootFlagged (DepGraph.mk
        [⟨strBytes "/r", 0, true⟩, ⟨strBytes "/s/h-a", 5, false⟩] [(0, 1)]) ∧
      (DepInfos.new_from_graph (DepGraph.mk
        [⟨strBytes "/r", 0, true⟩, ⟨strBytes "/s/h-a", 5, false⟩]
        [(0, 1)])).roots_attr_coherent) :=
  ⟨by decide, new_from_graph_coherent _ (by decide)⟩

/-! ## Reachability (DepInfos::reachable_size) -/

/-- The size of the node at index i. -/
def nodeSize (g : DepGraph) (i : Nat) : Nat := (g.nodes.getD i default).size

/-- One iteration of petgraph 0.4 Dfs::next's successor loop: a successor
not yet discovered is marked discovered and pushed on the stack. -/
def pushStep (p : Finset Nat × List Nat) (succ : Nat) : Finset Nat × List Nat :=
  if succ ∈ p.1 then p else (insert succ p.1, succ :: p.2)

/-- The while-let loop of reachable_size: pop a node, mark and push its
undiscovered successors, add the popped node's size to the accumulator with
wrapping u64 addition. fuel bounds the iteration count; reachable_size
supplies provably sufficient fuel. -/
def dfsLoop (g : DepGraph) : Nat → Finset Nat → List Nat → Nat → Nat
  | 0, _, _, acc => acc
  | _ + 1, _, [], acc => acc
  | fuel + 1, visited, n :: rest, acc =>
    let p := (g.neighbors n).foldl pushStep (visited, rest)
    dfsLoop g fuel p.1 p.2 (wadd acc (nodeSize g n))

/-- Companion of dfsLoop computing the final discovered set and the exact
(unwrapped) sum of popped sizes. -/
def dfsAux (g : DepGraph) : Nat → Finset Nat → List Nat → Finset Nat × Nat
  | 0, visited, _ => (visited, 0)
  | _ + 1, visited, [] => (visited, 0)
  | fuel + 1, visited, n :: rest =>
    let p := (g.neighbors n).foldl pushStep (visited, rest)
    let r := dfsAux g fuel p.1 p.2
    (r.1, nodeSize g n + r.2)

/-- DepInfos::reachable_size: seed the Dfs's discovered set and stack with
the roots, then drain the Dfs summing the sizes of returned nodes. -/
def DepInfos.reachable_size (di : DepInfos) : Nat :=
  dfsLoop di.graph (di.roots.length + 2 * di.graph.nodes.length + 1)
    di.roots.toFinset di.roots.reverse 0

/-- One edge step of the graph. -/
def Step (g : DepGraph) (a b : Nat) : Prop := b ∈ g.neighbors a

/-- Reachability along directed edges. -/
def Reaches (g : DepGraph) : Nat → Nat → Prop := Relation.ReflTransGen (Step g)

theorem neighbors_lt (g : DepGraph) (hwf : edgesWf g) (n x : Nat)
    (h : x ∈ g.neighbors n) : x < g.nodes.length := by
  unfold DepGraph.neighbors at h
  rw [List.mem_reverse] at h
  obtain ⟨e, he, hx⟩ := List.mem_map.mp h
  exact hx ▸ (hwf e (List.mem_filter.mp he).1).2

theorem reaches_lt (g : DepGraph) (hwf : edgesWf g) (r x : Nat)
    (h : Reaches g r x) (hr : r < g.nodes.length) : x < g.nodes.length := by
  induction h with
  | refl => exact hr
  | tail _ h2 _ => exact neighbors_lt g hwf _ _ h2

/-- Invariant of the Dfs loop state. -/
structure DfsInv (g : DepGraph) (vis : Finset Nat) (st : List Nat) : Prop where
  nodup : st.Nodup
  stmem : ∀ x ∈ st, x ∈ vis
  vrange : vis ⊆ Finset.range g.nodes.length
  closed : ∀ v ∈ vis, v ∈ st ∨ ∀ w ∈ g.neighbors v, w ∈ vis

theorem pushList_spec (l : List Nat) : ∀ (vis : Finset Nat) (st : List Nat),
    st.Nodup → (∀ x ∈ st, x ∈ vis) →
    (l.foldl pushStep (vis, st)).1 = vis ∪ l.toFinset ∧
    (l.foldl pushStep (vis, st)).2.toFinset = st.toFinset ∪ (l.toFinset \ vis) ∧
    (l.foldl pushStep (vis, st)).2.Nodup ∧
    (∀ x ∈ (l.foldl pushStep (vis, st)).2, x ∈ (l.foldl pushStep (vis, st)).1) ∧
    (l.foldl pushStep (vis, st)).2.length = st.length + (l.toFinset \ vis).card := by
  induction l with
  | nil =>
    intro vis st hnd hm
    refine ⟨by simp, by simp, hnd, hm, by simp⟩
  | cons a l ih =>
    intro vis st hnd hm
    rw [List.foldl_cons]
    by_cases ha : a ∈ vis
    · rw [show pushStep (vis, st) a = (vis, st) from if_pos ha]
      obtain ⟨h1, h2, h3, h4, h5⟩ := ih vis st hnd hm
      have e1 : vis ∪ (a :: l).toFinset = vis ∪ l.toFinset := by
        ext x
        simp only [List.toFinset_cons, Finset.mem_union, Finset.mem_insert,
          List.mem_toFinset]
        constructor
        · rintro (h | rfl | h)
          · exact Or.inl h
          · exact Or.inl ha
          · exact Or.inr h
        · rintro (h | h)
          · exact Or.inl h
          · exact Or.inr (Or.inr h)
      have e2 : ((a :: l).toFinset : Finset Nat) \ vis = l.toFinset \ vis := by
        ext x
        simp only [List.toFinset_cons, Finset.mem_sdiff, Finset.mem_insert,
          List.mem_toFinset]
        constructor
        · rintro ⟨rfl | h, hv⟩
          · exact absurd ha hv
          · exact ⟨h, hv⟩
        · rintro ⟨h, hv⟩
          exact ⟨Or.inr h, hv⟩
      exact ⟨by rw [h1, ← e1], by rw [h2, ← e2], h3, h4, by rw [h5, ← e2]⟩
    · rw [show pushStep (vis, st) a = (insert a vis, a :: st) from if_neg ha]
      have hnd' : (a :: st).Nodup := by
        refine List.nodup_cons.mpr ⟨fun hc => ha (hm a hc), hnd⟩
      have hm' : ∀ x ∈ a :: st, x ∈ insert a vis := by
        intro x hx
        rcases List.mem_cons.mp hx with h | h
        · subst h; exact Finset.mem_insert_self _ _
        · exact Finset.mem_insert_of_mem (hm x h)
      obtain ⟨h1, h2, h3, h4, h5⟩ := ih (insert a vis) (a :: st) hnd' hm'
      refine ⟨?_, ?_, h3, h4, ?_⟩
      · rw [h1]
        ext x
        simp only [List.toFinset_cons, Finset.mem_union, Finset.mem_insert,
          List.mem_toFinset]
        tauto
      · rw [h2]
        ext x
        simp only [List.toFinset_cons, Finset.mem_union, Finset.mem_insert,
          Finset.mem_sdiff, List.mem_toFinset]
        constructor
        · rintro ((rfl | h) | ⟨h, hna⟩)
          · exact Or.inr ⟨Or.inl rfl, ha⟩
          · exact Or.inl h
          · exact Or.inr ⟨Or.inr h, fun hv => hna (Or.inr hv)⟩
        · rintro (h | ⟨rfl | h, hv⟩)
          · exact Or.inl (Or.inr h)
          · exact Or.inl (Or.inl rfl)
          · by_cases hxa : x = a
            · exact Or.inl (Or.inl hxa)
            · exact Or.inr ⟨h, fun hc => hc.elim hxa hv⟩
      · rw [h5]
        have e3 : l.toFinset \ insert a vis = (l.toFinset \ vis).erase a := by
          ext x
          simp only [Finset.mem_sdiff, Finset.mem_insert, Finset.mem_erase,
            List.mem_toFinset]
          constructor
          · rintro ⟨h, hn⟩
            exact ⟨fun hx => hn (Or.inl hx), h, fun hv => hn (Or.inr hv)⟩
          · rintro ⟨hne, h, hv⟩
            exact ⟨h, fun hc => hc.elim hne hv⟩
        have e4 : ((a :: l).toFinset : Finset Nat) \ vis =
            insert a (l.toFinset \ vis) := by
          ext x
          simp only [List.toFinset_cons, Finset.mem_sdiff, Finset.mem_insert,
            List.mem_toFinset]
          constructor
          · rintro ⟨rfl | h, hv⟩
            · exact Or.inl rfl
            · exact Or.inr ⟨h, hv⟩
          · rintro (rfl | ⟨h, hv⟩)
            · exact ⟨Or.inl rfl, ha⟩
            · exact ⟨Or.inr h, hv⟩
        rw [e3, e4]
        simp only [List.length_cons]
        by_cases hal : a ∈ l.toFinset \ vis
        · rw [Finset.card_erase_of_mem hal, Finset.insert_eq_self.mpr hal]
          have := Finset.card_pos.mpr ⟨a, hal⟩
          omega
        · rw [Finset.erase_eq_of_not_mem hal, Finset.card_insert_of_not_mem hal]
          omega

theorem dfs_escape (g : DepGraph) (vis : Finset Nat) (stack : List Nat)
    (hclosed : ∀ v ∈ vis, v ∈ stack ∨ ∀ w ∈ g.neighbors v, w ∈ vis)
    (y x : Nat) (h : Reaches g y x) :
    y ∈ vis → x ∉ vis → ∃ s ∈ stack, Reaches g s x := by
  induction h using Relation.ReflTransGen.head_induction_on with
  | refl => intro hy hx; exact absurd hy hx
  | head h1 h2 ih =>
    intro ha hx
    rcases hclosed _ ha with hst | hcl
    · exact ⟨_, hst, Relation.ReflTransGen.head h1 h2⟩
    · exact ih (hcl _ h1) hx

theorem dfsAux_visited_iff (g : DepGraph) (hwf : edgesWf g) :
    ∀ (fuel : Nat) (vis : Finset Nat) (st : List Nat), DfsInv g vis st →
      st.length + 2 * ((Finset.range g.nodes.length) \ vis).card ≤ fuel →
      ∀ x, x ∈ (dfsAux g fuel vis st).1 ↔ (x ∈ vis ∨ ∃ s ∈ st, Reaches g s x) := by
  intro fuel
  induction fuel with
  | zero =>
    intro vis st hinv hfuel x
    have hst : st = [] := by
      cases st with
      | nil => rfl
      | cons a l => simp at hfuel
    subst hst
    simp [dfsAux]
  | succ fuel ih =>
    intro vis st hinv hfuel x
    match st with
    | [] => simp [dfsAux]
    | n :: rest =>
      obtain ⟨h1, h2, h3, h4, h5⟩ := pushList_spec (g.neighbors n) vis rest
        (List.nodup_cons.mp hinv.nodup).2
        (fun z hz => hinv.stmem z (List.mem_cons_of_mem n hz))
      set p := (g.neighbors n).foldl pushStep (vis, rest) with hp
      have hnbr_range : (g.neighbors n).toFinset ⊆ Finset.range g.nodes.length := by
        intro z hz
        rw [Finset.mem_range]
        exact neighbors_lt g hwf n z (List.mem_toFinset.mp hz)
      have hviss : vis ⊆ p.1 := by rw [h1]; exact Finset.subset_union_left
      have hinv' : DfsInv g p.1 p.2 := by
        refine ⟨h3, h4, ?_, ?_⟩
        · rw [h1]
          exact Finset.union_subset hinv.vrange hnbr_range
        · intro v hv
          rw [h1, Finset.mem_union] at hv
          rcases hv with hv | hv
          · rcases hinv.closed v hv with hst | hcl
            · rcases List.mem_cons.mp hst with rfl | hst
              · right
                intro w hw
                rw [h1, Finset.mem_union]
                right
                exact List.mem_toFinset.mpr hw
              · left
                rw [← List.mem_toFinset, h2, Finset.mem_union]
                left
                exact List.mem_toFinset.mpr hst
            · right
              intro w hw
              exact hviss (hcl w hw)
          · by_cases hv2 : v ∈ vis
            · rcases hinv.closed v hv2 with hst | hcl
              · rcases List.mem_cons.mp hst with rfl | hst
                · right
                  intro w hw
                  rw [h1, Finset.mem_union]
                  right
                  exact List.mem_toFinset.mpr hw
                · left
                  rw [← List.mem_toFinset, h2, Finset.mem_union]
                  left
                  exact List.mem_toFinset.mpr hst
              · right
                intro w hw
                exact hviss (hcl w hw)
            · left
              rw [← List.mem_toFinset, h2, Finset.mem_union]
              right
              exact Finset.mem_sdiff.mpr ⟨hv, hv2⟩
      have hsd : ((g.neighbors n).toFinset \ vis) ⊆
          (Finset.range g.nodes.length \ vis) := by
        intro z hz
        rw [Finset.mem_sdiff] at hz ⊢
        exact ⟨hnbr_range hz.1, hz.2⟩
      have hcard : (Finset.range g.nodes.length \ p.1).card =
          (Finset.range g.nodes.length \ vis).card -
            ((g.neighbors n).toFinset \ vis).card := by
        have e : Finset.range g.nodes.length \ p.1 =
            (Finset.range g.nodes.length \ vis) \
              ((g.neighbors n).toFinset \ vis) := by
          rw [h1]; ext z; simp; tauto
        rw [e, Finset.card_sdiff hsd]
      have hkc : ((g.neighbors n).toFinset \ vis).card ≤
          (Finset.range g.nodes.length \ vis).card :=
        Finset.card_le_card hsd
      have hfuel' : p.2.length +
          2 * ((Finset.range g.nodes.length) \ p.1).card ≤ fuel := by
        rw [h5, hcard]
        simp only [List.length_cons] at hfuel
        omega
      have hMain := ih p.1 p.2 hinv' hfuel'
      have hstep : (dfsAux g (fuel + 1) vis (n :: rest)).1 =
          (dfsAux g fuel p.1 p.2).1 := by
        simp [dfsAux]
      rw [hstep, hMain x]
      constructor
      · rintro (hx | ⟨s, hs, hr⟩)
        · rw [h1, Finset.mem_union] at hx
          rcases hx with hx | hx
          · exact Or.inl hx
          · exact Or.inr ⟨n, List.mem_cons_self n rest,
              Relation.ReflTransGen.single (List.mem_toFinset.mp hx)⟩
        · rw [← List.mem_toFinset, h2, Finset.mem_union] at hs
          rcases hs with hs | hs
          · exact Or.inr ⟨s, List.mem_cons_of_mem n (List.mem_toFinset.mp hs), hr⟩
          · exact Or.inr ⟨n, List.mem_cons_self n rest,
              Relation.ReflTransGen.head
                (List.mem_toFinset.mp (Finset.mem_sdiff.mp hs).1) hr⟩
      · rintro (hx | ⟨s, hs, hr⟩)
        · exact Or.inl (hviss hx)
        · rcases List.mem_cons.mp hs with rfl | hs
          · by_cases hxv : x ∈ p.1
            · exact Or.inl hxv
            · obtain ⟨s', hs', hr'⟩ := dfs_escape g p.1 p.2 hinv'.closed s x hr
                (hviss (hinv.stmem s (List.mem_cons_self s rest))) hxv
              exact Or.inr ⟨s', hs', hr'⟩
          · refine Or.inr ⟨s, ?_, hr⟩
            rw [← List.mem_toFinset, h2, Finset.mem_union]
            left
            exact List.mem_toFinset.mpr hs

theorem dfs_advance (g : DepGraph) (hwf : edgesWf g) (fuel : Nat)
    (vis : Finset Nat) (n : Nat) (rest : List Nat)
    (hinv : DfsInv g vis (n :: rest))
    (hfuel : (n :: rest).length +
      2 * ((Finset.range g.nodes.length) \ vis).card ≤ fuel + 1) :
    DfsInv g ((g.neighbors n).foldl pushStep (vis, rest)).1
      ((g.neighbors n).foldl pushStep (vis, rest)).2 ∧
    ((g.neighbors n).foldl pushStep (vis, rest)).2.length +
      2 * ((Finset.range g.nodes.length) \
        ((g.neighbors n).foldl pushStep (vis, rest)).1).card ≤ fuel ∧
    ((g.neighbors n).foldl pushStep (vis, rest)).1 =
      vis ∪ (g.neighbors n).toFinset ∧
    ((g.neighbors n).foldl pushStep (vis, rest)).2.toFinset =
      rest.toFinset ∪ ((g.neighbors n).toFinset \ vis) := by
  obtain ⟨h1, h2, h3, h4, h5⟩ := pushList_spec (g.neighbors n) vis rest
    (List.nodup_cons.mp hinv.nodup).2
    (fun z hz => hinv.stmem z (List.mem_cons_of_mem n hz))
  have hnbr_range : (g.neighbors n).toFinset ⊆ Finset.range g.nodes.length := by
    intro z hz
    rw [Finset.mem_range]
    exact neighbors_lt g hwf n z (List.mem_toFinset.mp hz)
  have hviss : vis ⊆ ((g.neighbors n).foldl pushStep (vis, rest)).1 := by
    rw [h1]; exact Finset.subset_union_left
  refine ⟨⟨h3, h4, ?_, ?_⟩, ?_, h1, h2⟩
  · rw [h1]
    exact Finset.union_subset hinv.vrange hnbr_range
  · intro v hv
    rw [h1, Finset.mem_union] at hv
    have hcase : v ∈ vis ∨ (v ∈ (g.neighbors n).toFinset ∧ v ∉ vis) := by
      by_cases hv2 : v ∈ vis
      · exact Or.inl hv2
      · rcases hv with hv | hv
        · exact absurd hv hv2
        · exact Or.inr ⟨hv, hv2⟩
    rcases hcase with hv2 | ⟨hv2, hv3⟩
    · rcases hinv.closed v hv2 with hst | hcl
      · rcases List.mem_cons.mp hst with rfl | hst
        · right
          intro w hw
          rw [h1, Finset.mem_union]
          right
          exact List.mem_toFinset.mpr hw
        · left
          rw [← List.mem_toFinset, h2, Finset.mem_union]
          left
          exact List.mem_toFinset.mpr hst
      · right
        intro w hw
        exact hviss (hcl w hw)
    · left
      rw [← List.mem_toFinset, h2, Finset.mem_union]
      right
      exact Finset.mem_sdiff.mpr ⟨hv2, hv3⟩
  · have hsd : ((g.neighbors n).toFinset \ vis) ⊆
        (Finset.range g.nodes.length \ vis) := by
      intro z hz
      rw [Finset.mem_sdiff] at hz ⊢
      exact ⟨hnbr_range hz.1, hz.2⟩
    have hcard : (Finset.range g.nodes.length \
        ((g.neighbors n).foldl pushStep (vis, rest)).1).card =
        (Finset.range g.nodes.length \ vis).card -
          ((g.neighbors n).toFinset \ vis).card := by
      have e : Finset.range g.nodes.length \
          ((g.neighbors n).foldl pushStep (vis, rest)).1 =
          (Finset.range g.nodes.length \ vis) \
            ((g.neighbors n).toFinset \ vis) := by
        rw [h1]; ext z; simp; tauto
      rw [e, Finset.card_sdiff hsd]
    have hkc : ((g.neighbors n).toFinset \ vis).card ≤
        (Finset.range g.nodes.length \ vis).card :=
      Finset.card_le_card hsd
    rw [h5, hcard]
    simp only [List.length_cons] at hfuel
    omega

theorem dfsAux_sum (g : DepGraph) (hwf : edgesWf g) :
    ∀ (fuel : Nat) (vis : Finset Nat) (st : List Nat), DfsInv g vis st →
      st.length + 2 * ((Finset.range g.nodes.length) \ vis).card ≤ fuel →
      (dfsAux g fuel vis st).2 =
        ∑ x ∈ ((dfsAux g fuel vis st).1 \ vis) ∪ st.toFinset, nodeSize g x := by
  intro fuel
  induction fuel with
  | zero =>
    intro vis st hinv hfuel
    have hst : st = [] := by
      cases st with
      | nil => rfl
      | cons a l => simp at hfuel
    subst hst
    simp [dfsAux]
  | succ fuel ih =>
    intro vis st hinv hfuel
    match st with
    | [] => simp [dfsAux]
    | n :: rest =>
      obtain ⟨hinv', hfuel', hA, hB⟩ := dfs_advance g hwf fuel vis n rest hinv hfuel
      have hIH := ih _ _ hinv' hfuel'
      have hvisiff := dfsAux_visited_iff g hwf fuel _ _ hinv' hfuel'
      have hstep1 : (dfsAux g (fuel + 1) vis (n :: rest)).1 =
          (dfsAux g fuel ((g.neighbors n).foldl pushStep (vis, rest)).1
            ((g.neighbors n).foldl pushStep (vis, rest)).2).1 := by
        simp [dfsAux]
      have hstep2 : (dfsAux g (fuel + 1) vis (n :: rest)).2 =
          nodeSize g n + (dfsAux g fuel
            ((g.neighbors n).foldl pushStep (vis, rest)).1
            ((g.neighbors n).foldl pushStep (vis, rest)).2).2 := by
        simp [dfsAux]
      have hnvis : n ∈ vis := hinv.stmem n (List.mem_cons_self n rest)
      have hsubR : ((g.neighbors n).foldl pushStep (vis, rest)).1 ⊆
          (dfsAux g fuel ((g.neighbors n).foldl pushStep (vis, rest)).1
            ((g.neighbors n).foldl pushStep (vis, rest)).2).1 :=
        fun z hz => (hvisiff z).mpr (Or.inl hz)
      have hnp1 : n ∈ ((g.neighbors n).foldl pushStep (vis, rest)).1 := by
        rw [hA]; exact Finset.mem_union_left _ hnvis
      have hnmem : n ∉ ((dfsAux g fuel
          ((g.neighbors n).foldl pushStep (vis, rest)).1
          ((g.neighbors n).foldl pushStep (vis, rest)).2).1 \
            ((g.neighbors n).foldl pushStep (vis, rest)).1) ∪
          ((g.neighbors n).foldl pushStep (vis, rest)).2.toFinset := by
        rw [Finset.mem_union, Finset.mem_sdiff]
        rintro (⟨_, hcon⟩ | hcon)
        · exact hcon hnp1
        · rw [hB, Finset.mem_union] at hcon
          rcases hcon with hcon | hcon
          · exact (List.nodup_cons.mp hinv.nodup).1 (List.mem_toFinset.mp hcon)
          · exact (Finset.mem_sdiff.mp hcon).2 hnvis
      have hsplit : ((dfsAux g fuel
          ((g.neighbors n).foldl pushStep (vis, rest)).1
          ((g.neighbors n).foldl pushStep (vis, rest)).2).1 \ vis) ∪
            (n :: rest).toFinset =
          insert n (((dfsAux g fuel
            ((g.neighbors n).foldl pushStep (vis, rest)).1
            ((g.neighbors n).foldl pushStep (vis, rest)).2).1 \
              ((g.neighbors n).foldl pushStep (vis, rest)).1) ∪
            ((g.neighbors n).foldl pushStep (vis, rest)).2.toFinset) := by
        ext x
        simp only [Finset.mem_union, Finset.mem_sdiff, Finset.mem_insert,
          List.toFinset_cons, List.mem_toFinset, hB, Finset.mem_union]
        constructor
        · rintro (⟨hR, hv⟩ | rfl | hr)
          · by_cases hq : x ∈ ((g.neighbors n).foldl pushStep (vis, rest)).1
            · have hx2 : x ∈ (g.neighbors n).toFinset := by
                rw [hA, Finset.mem_union] at hq
                rcases hq with hq | hq
                · exact absurd hq hv
                · exact hq
              exact Or.inr (Or.inr (Or.inr ⟨List.mem_toFinset.mp hx2, hv⟩))
            · exact Or.inr (Or.inl ⟨hR, hq⟩)
          · exact Or.inl rfl
          · exact Or.inr (Or.inr (Or.inl hr))
        · rintro (rfl | ⟨hR, hp1⟩ | hr | hx)
          · exact Or.inr (Or.inl rfl)
          · refine Or.inl ⟨hR, fun hv => hp1 ?_⟩
            rw [hA]
            exact Finset.mem_union_left _ hv
          · exact Or.inr (Or.inr hr)
          · obtain ⟨hnb, hv⟩ := hx
            refine Or.inl ⟨hsubR ?_, hv⟩
            rw [hA]
            exact Finset.mem_union_right _ (List.mem_toFinset.mpr hnb)
      rw [hstep1, hstep2, hIH, hsplit, Finset.sum_insert hnmem]

theorem dfsLoop_eq_dfsAux (g : DepGraph) :
    ∀ (fuel : Nat) (vis : Finset Nat) (st : List Nat) (acc : Nat), acc < U64 →
      dfsLoop g fuel vis st acc = (acc + (dfsAux g fuel vis st).2) % U64 := by
  intro fuel
  induction fuel with
  | zero =>
    intro vis st acc hacc
    simp [dfsLoop, dfsAux, Nat.mod_eq_of_lt hacc]
  | succ fuel ih =>
    intro vis st acc hacc
    match st with
    | [] => simp [dfsLoop, dfsAux, Nat.mod_eq_of_lt hacc]
    | n :: rest =>
      have hlt : wadd acc (nodeSize g n) < U64 := Nat.mod_lt _ U64_pos
      have hL : dfsLoop g (fuel + 1) vis (n :: rest) acc =
          dfsLoop g fuel ((g.neighbors n).foldl pushStep (vis, rest)).1
            ((g.neighbors n).foldl pushStep (vis, rest)).2
            (wadd acc (nodeSize g n)) := rfl
      have hR : (dfsAux g (fuel + 1) vis (n :: rest)).2 =
          nodeSize g n + (dfsAux g fuel
            ((g.neighbors n).foldl pushStep (vis, rest)).1
            ((g.neighbors n).foldl pushStep (vis, rest)).2).2 := by
        simp [dfsAux]
      rw [hL, ih _ _ _ hlt, hR]
      unfold wadd
      rw [Nat.mod_add_mod, ← Nat.add_assoc]

/-- Claim C3: reachable_size equals the sum of sizes over exactly the set of
nodes reachable from some root, each node counted once, for every DepInfos
whose roots are valid distinct indices, whose edges are within bounds, and
whose total size fits in u64. -/
theorem reachable_size_correct (di : DepInfos) (hwf : edgesWf di.graph)
    (hnd : di.roots.Nodup)
    (hroots : ∀ r ∈ di.roots, r < di.graph.nodes.length)
    (hsum : ∑ x ∈ Finset.range di.graph.nodes.length, nodeSize di.graph x < U64) :
    ∃ S : Finset Nat,
      (∀ x, x ∈ S ↔ ∃ r ∈ di.roots, Reaches di.graph r x) ∧
      di.reachable_size = ∑ x ∈ S, nodeSize di.graph x := by
  have hinv : DfsInv di.graph di.roots.toFinset di.roots.reverse :=
    ⟨List.nodup_reverse.mpr hnd,
      fun x hx => List.mem_toFinset.mpr (List.mem_reverse.mp hx),
      fun x hx => Finset.mem_range.mpr (hroots x (List.mem_toFinset.mp hx)),
      fun v hv => Or.inl (List.mem_reverse.mpr (List.mem_toFinset.mp hv))⟩
  have hfuel : di.roots.reverse.length +
      2 * ((Finset.range di.graph.nodes.length) \ di.roots.toFinset).card ≤
      di.roots.length + 2 * di.graph.nodes.length + 1 := by
    have h1 : ((Finset.range di.graph.nodes.length) \ di.roots.toFinset).card ≤
        di.graph.nodes.length := by
      calc ((Finset.range di.graph.nodes.length) \ di.roots.toFinset).card
          ≤ (Finset.range di.graph.nodes.length).card :=
            Finset.card_le_card (Finset.sdiff_subset)
        _ = di.graph.nodes.length := Finset.card_range _
    rw [List.length_reverse]
    omega
  have hiff := dfsAux_visited_iff di.graph hwf
    (di.roots.length + 2 * di.graph.nodes.length + 1)
    di.roots.toFinset di.roots.reverse hinv hfuel
  refine ⟨(dfsAux di.graph (di.roots.length + 2 * di.graph.nodes.length + 1)
    di.roots.toFinset di.roots.reverse).1, ?_, ?_⟩
  · intro x
    rw [hiff x]
    constructor
    · rintro (hx | ⟨s, hs, hr⟩)
      · exact ⟨x, List.mem_toFinset.mp hx, Relation.ReflTransGen.refl⟩
      · exact ⟨s, List.mem_reverse.mp hs, hr⟩
    · rintro ⟨r, hr, hre⟩
      exact Or.inr ⟨r, List.mem_reverse.mpr hr, hre⟩
  · have hsub : di.roots.toFinset ⊆
        (dfsAux di.graph (di.roots.length + 2 * di.graph.nodes.length + 1)
          di.roots.toFinset di.roots.reverse).1 :=
      fun z hz => (hiff z).mpr (Or.inl hz)
    have hS : ((dfsAux di.graph (di.roots.length + 2 * di.graph.nodes.length + 1)
          di.roots.toFinset di.roots.reverse).1 \ di.roots.toFinset) ∪
          di.roots.reverse.toFinset =
        (dfsAux di.graph (di.roots.length + 2 * di.graph.nodes.length + 1)
          di.roots.toFinset di.roots.reverse).1 := by
      rw [List.toFinset_reverse]
      ext z
      simp only [Finset.mem_union, Finset.mem_sdiff]
      constructor
      · rintro (⟨h, _⟩ | h)
        · exact h
        · exact hsub h
      · intro h
        by_cases hz : z ∈ di.roots.toFinset
        · exact Or.inr hz
        · exact Or.inl ⟨h, hz⟩
    have hle : ∑ x ∈ (dfsAux di.graph
          (di.roots.length + 2 * di.graph.nodes.length + 1)
          di.roots.toFinset di.roots.reverse).1, nodeSize di.graph x ≤
        ∑ x ∈ Finset.range di.graph.nodes.length, nodeSize di.graph x := by
      apply Finset.sum_le_sum_of_subset
      intro z hz
      rcases (hiff z).mp hz with h | ⟨s, hs, hr⟩
      · exact hinv.vrange h
      · exact Finset.mem_range.mpr (reaches_lt di.graph hwf s z hr
          (hroots s (List.mem_reverse.mp hs)))
    show dfsLoop di.graph (di.roots.length + 2 * di.graph.nodes.length + 1)
      di.roots.toFinset di.roots.reverse 0 = _
    rw [dfsLoop_eq_dfsAux di.graph _ _ _ 0 U64_pos, Nat.zero_add,
      dfsAux_sum di.graph hwf _ _ _ hinv hfuel, hS]
    exact Nat.mod_eq_of_lt (lt_of_le_of_lt hle hsum)

/-- The diamond graph A→B, A→C, B→D, C→D with root A from the spec. -/
def diamond : DepInfos :=
  ⟨⟨[⟨strBytes "/d-a", 1, true⟩, ⟨strBytes "/d-b", 2, false⟩,
     ⟨strBytes "/d-c", 4, false⟩, ⟨strBytes "/d-d", 8, false⟩],
    [(0, 1), (0, 2), (1, 3), (2, 3)]⟩, [0]⟩

/-- Closed instance of reachable_size_correct on the diamond graph. -/
theorem reachable_size_correct_witness :
    ∃ S : Finset Nat,
      (∀ x, x ∈ S ↔ ∃ r ∈ diamond.roots, Reaches diamond.graph r x) ∧
      diamond.reachable_size = ∑ x ∈ S, nodeSize diamond.graph x :=
  reachable_size_correct diamond (by decide) (by decide) (by decide) (by decide)

/-! ## The hardlink refinement pass (opt.rs refine_optimized_store) -/

/-- File types reported by the filesystem collaborator. -/
inductive FileTy
  | file
  | dir
  | symlink
  | other
deriving DecidableEq

instance exceptDecEq {ε α : Type} [DecidableEq ε] [DecidableEq α] :
    DecidableEq (Except ε α)
  | Except.error e1, Except.error e2 =>
    if h : e1 = e2 then isTrue (by rw [h])
    else isFalse (by intro hc; injection hc; exact h (by assumption))
  | Except.error _, Except.ok _ => isFalse (by intro hc; injection hc)
  | Except.ok _, Except.error _ => isFalse (by intro hc; injection hc)
  | Except.ok a1, Except.ok a2 =>
    if h : a1 = a2 then isTrue (by rw [h])
    else isFalse (by intro hc; injection hc; exact h (by assumption))

/-- One entry yielded by a WalkDir subtree walk: its file type, its inode
number, and the result of the separate metadata (stat) call giving the byte
length, which can fail on its own. -/
structure WalkEntry where
  ftype : FileTy
  ino : Nat
  meta : Except Nat Nat
deriving DecidableEq

/-- One entry of a read_dir directory listing: results of the file_type and
metadata-nlink calls. -/
structure DirEntry where
  ftype : Except Nat FileTy
  nlink : Except Nat Nat
deriving DecidableEq

/-- The filesystem collaborator: symlink-metadata queries, subtree walks
(each yielded entry may itself be an error, as with walkdir), and directory
listings (read_dir may fail, and each yielded entry may be an error). -/
structure FS where
  symlinkMeta : List Nat → Except Nat Bool
  walk : List Nat → List (Except Nat WalkEntry)
  readDir : List Nat → Except Nat (List (Except Nat DirEntry))

/-- The per-inode bookkeeping state (enum Owner in opt.rs). -/
inductive Owner
  | one (n : Nat)
  | several (n : Nat)
deriving DecidableEq

/-- The inode_to_owner map. -/
def OwnerMap : Type := Nat → Option Owner

/-- Map update (BTreeMap insert / in-place entry update). -/
def owUpd (m : OwnerMap) (k : Nat) (v : Owner) : OwnerMap :=
  fun i => if i = k then some v else m i

/-- State threaded through the pass: the graph under mutation plus the
inode map. -/
def RefState : Type := DepInfos × OwnerMap

/-- In-place update `nodes[i].size -= len` with wrapping u64 subtraction. -/
def subSize : List Derivation → Nat → Nat → List Derivation
  | [], _, _ => []
  | d :: l, 0, len => ⟨d.path, wsub d.size len, d.is_root⟩ :: l
  | d :: l, i + 1, len => d :: subSize l i len

/-- The SHARED_PREFIX byte constant "shared:". -/
def sharedTag : List Nat := strBytes "shared:"

/-- Processing of one regular-file walk entry against the inode map
(the match on inode_to_owner.entry(ino) in refine_optimized_store):
first sighting records Owner::one; a later sighting stats the file
(fallible), then either creates the shared node (second sighting) or links
to it (third and later sightings). -/
def processInode (st : RefState) (idx : Nat) (entry : WalkEntry) :
    Except Nat RefState :=
  match st.2 entry.ino with
  | none => Except.ok (st.1, owUpd st.2 entry.ino (Owner.one idx))
  | some v =>
    match entry.meta with
    | Except.error e => Except.error e
    | Except.ok len =>
      match v with
      | Owner.one n =>
        let g := st.1.graph
        let newPath := sharedTag ++ (g.nodes.getD idx default).name
        let newIdx := g.nodes.length
        let g4 : DepGraph :=
          ⟨subSize (subSize (g.nodes ++ [⟨newPath, len, false⟩]) n len) idx len,
           (g.edges ++ [(n, newIdx)]) ++ [(idx, newIdx)]⟩
        Except.ok (⟨g4, st.1.roots⟩, owUpd st.2 entry.ino (Owner.several newIdx))
      | Owner.several n =>
        let g := st.1.graph
        let g2 : DepGraph := ⟨subSize g.nodes idx len, g.edges ++ [(idx, n)]⟩
        Except.ok (⟨g2, st.1.roots⟩, st.2)

/-- One iteration of the inner walk loop: a failed walk entry aborts, a
non-file entry is skipped, a file entry is processed against the map. -/
def walkStep (idx : Nat) (st : RefState) (ent : Except Nat WalkEntry) :
    Except Nat RefState :=
  match ent with
  | Except.error e => Except.error e
  | Except.ok entry =>
    if entry.ftype = FileTy.file then processInode st idx entry else Except.ok st

/-- Fold a fallible body over a list, stopping at the first error but
keeping the state accumulated so far (the behaviour of a `for` loop over a
`&mut` state with `?`). -/
def foldAbortE {σ α : Type} (f : σ → α → Except Nat σ) :
    σ → List α → σ × Option Nat
  | s, [] => (s, none)
  | s, a :: l =>
    match f s a with
    | Except.error e => (s, some e)
    | Except.ok s2 => foldAbortE f s2 l

/-- Same, for a body which itself returns state-plus-optional-error. -/
def foldAbortS {σ α : Type} (f : σ → α → σ × Option Nat) :
    σ → List α → σ × Option Nat
  | s, [] => (s, none)
  | s, a :: l =>
    match f s a with
    | (s2, none) => foldAbortS f s2 l
    | (s2, some e) => (s2, some e)

/-- The per-node body of refine_optimized_store: skip roots, skip nodes
whose path is not a filesystem path, read symlink metadata (fallible), skip
symlinks, then walk the subtree. -/
def refineNode (fs : FS) (st : RefState) (idx : Nat) : RefState × Option Nat :=
  let d := st.1.graph.nodes.getD idx default
  if d.is_root then (st, none)
  else
    match d.path_as_os_str with
    | none => (st, none)
    | some p =>
      match fs.symlinkMeta p with
      | Except.error e => (st, some e)
      | Except.ok true => (st, none)
      | Except.ok false => foldAbortE (walkStep idx) st (fs.walk p)

/-- refine_optimized_store's main loop over the node indices collected
before any mutation, also returning the final inode map. -/
def refineCore (fs : FS) (di : DepInfos) : RefState × Option Nat :=
  foldAbortS (refineNode fs) (di, fun _ => none)
    (List.range di.graph.nodes.length)

/-- pub fn refine_optimized_store: the mutated DepInfos (mutations are kept
even on error, since the graph is behind &mut) and the Result, modelled as
an optional error code. -/
def refine_optimized_store (fs : FS) (di : DepInfos) : DepInfos × Option Nat :=
  ((refineCore fs di).1.1, (refineCore fs di).2)

theorem subSize_length (l : List Derivation) (i len : Nat) :
    (subSize l i len).length = l.length := by
  induction l generalizing i with
  | nil => rfl
  | cons d l ih =>
    cases i with
    | zero => rfl
    | succ i => simpa [subSize] using ih i

theorem subSize_getD_ne (l : List Derivation) (i len j : Nat) (h : j ≠ i) :
    (subSize l i len).getD j default = l.getD j default := by
  induction l generalizing i j with
  | nil => rfl
  | cons d l ih =>
    cases i with
    | zero =>
      cases j with
      | zero => exact absurd rfl h
      | succ j => rfl
    | succ i =>
      cases j with
      | zero => rfl
      | succ j =>
        simp only [subSize, List.getD_cons_succ]
        exact ih i j (fun hc => h (by omega))

theorem subSize_getD_eq (l : List Derivation) (i len : Nat)
    (h : i < l.length) :
    (subSize l i len).getD i default =
      ⟨(l.getD i default).path, wsub (l.getD i default).size len,
       (l.getD i default).is_root⟩ := by
  induction l generalizing i with
  | nil => simp at h
  | cons d l ih =>
    cases i with
    | zero => rfl
    | succ i =>
      simp only [subSize, List.getD_cons_succ]
      exact ih i (by simpa using h)

theorem subSize_getD_oob (l : List Derivation) (i len : Nat)
    (h : l.length ≤ i) :
    subSize l i len = l := by
  induction l generalizing i with
  | nil => rfl
  | cons d l ih =>
    cases i with
    | zero => simp at h
    | succ i =>
      simp only [subSize]
      rw [ih i (by simpa using h)]

theorem getD_append_left_nd (l l2 : List Derivation) (j : Nat)
    (h : j < l.length) : (l ++ l2).getD j default = l.getD j default :=
  List.getD_append l l2 default j h

theorem getD_append_self (l : List Derivation) (x : Derivation) :
    (l ++ [x]).getD l.length default = x := by
  induction l with
  | nil => rfl
  | cons d l ih => exact ih

/-! ## Claim C1: the second sighting of an inode -/

/-- Two single-file store entries sharing inode 7; names are "foo" for the
first-visited entry and "bar" for the second. -/
def exDi1 : DepInfos :=
  ⟨⟨[⟨strBytes "/s/aa-foo", 100, false⟩,
     ⟨strBytes "/s/bb-bar", 100, false⟩], []⟩, []⟩

/-- Filesystem for exDi1: each entry's subtree holds one regular file of 10
bytes with inode 7. -/
def exFS1 : FS :=
  ⟨fun _ => Except.ok false,
   fun p =>
     if p = strBytes "/s/aa-foo" then [Except.ok ⟨FileTy.file, 7, Except.ok 10⟩]
     else if p = strBytes "/s/bb-bar" then
       [Except.ok ⟨FileTy.file, 7, Except.ok 10⟩]
     else [],
   fun _ => Except.error 0⟩

/-- Concrete run refuting Claim C1 as stated: the first owner of inode 7 is
node 0 (name "foo"), the second sighting happens at node 1 (name "bar"),
and the synthetic node created is named "shared:bar" after the CURRENT
node, not "shared:foo" after the original first owner as the claim says. -/
theorem second_sighting_name_cx :
    (refine_optimized_store exFS1 exDi1).2 = none ∧
    (refine_optimized_store exFS1 exDi1).1.graph.nodes.length = 3 ∧
    (exDi1.graph.nodes.getD 0 default).name = strBytes "foo" ∧
    (exDi1.graph.nodes.getD 1 default).name = strBytes "bar" ∧
    ((refine_optimized_store exFS1 exDi1).1.graph.nodes.getD 2 default).path =
      sharedTag ++ strBytes "bar" ∧
    ((refine_optimized_store exFS1 exDi1).1.graph.nodes.getD 2 default).path ≠
      sharedTag ++ (exDi1.graph.nodes.getD 0 default).name := by
  decide

/-- Claim C1 (amended): at a second sighting of an inode (map state
Owner.one n), refine_optimized_store's entry processing creates one
synthetic node whose path is "shared:" followed by the name of the CURRENT
node (whose walk triggered the second sighting), with size the file's byte
length and is_root false; it adds an edge from the original owner n and
from the current node to the new node, and subtracts the byte length from
both nodes' sizes. -/
theorem second_sighting_spec (st : RefState) (idx n len : Nat)
    (entry : WalkEntry)
    (how : st.2 entry.ino = some (Owner.one n))
    (hmeta : entry.meta = Except.ok len)
    (hne : n ≠ idx)
    (hn : n < st.1.graph.nodes.length)
    (hidx : idx < st.1.graph.nodes.length)
    (hlen1 : len ≤ (st.1.graph.nodes.getD n default).size)
    (hlen2 : len ≤ (st.1.graph.nodes.getD idx default).size)
    (hs1 : (st.1.graph.nodes.getD n default).size < U64)
    (hs2 : (st.1.graph.nodes.getD idx default).size < U64) :
    ∃ st2, processInode st idx entry = Except.ok st2 ∧
      st2.1.graph.nodes.length = st.1.graph.nodes.length + 1 ∧
      st2.1.graph.nodes.getD st.1.graph.nodes.length default =
        ⟨sharedTag ++ (st.1.graph.nodes.getD idx default).name, len, false⟩ ∧
      st2.1.graph.edges = st.1.graph.edges ++
        [(n, st.1.graph.nodes.length), (idx, st.1.graph.nodes.length)] ∧
      (st2.1.graph.nodes.getD n default).size =
        (st.1.graph.nodes.getD n default).size - len ∧
      (st2.1.graph.nodes.getD idx default).size =
        (st.1.graph.nodes.getD idx default).size - len ∧
      (st2.1.graph.nodes.getD n default).path =
        (st.1.graph.nodes.getD n default).path ∧
      (st2.1.graph.nodes.getD idx default).path =
        (st.1.graph.nodes.getD idx default).path ∧
      st2.1.roots = st.1.roots ∧
      st2.2 entry.ino = some (Owner.several st.1.graph.nodes.length) := by
  have hstep : processInode st idx entry = Except.ok
      (⟨⟨subSize (subSize (st.1.graph.nodes ++
          [⟨sharedTag ++ (st.1.graph.nodes.getD idx default).name, len, false⟩])
          n len) idx len,
        (st.1.graph.edges ++ [(n, st.1.graph.nodes.length)]) ++
          [(idx, st.1.graph.nodes.length)]⟩, st.1.roots⟩,
       owUpd st.2 entry.ino (Owner.several st.1.graph.nodes.length)) := by
    unfold processInode
    rw [how, hmeta]
  have hinnerlen : (st.1.graph.nodes ++
      [(⟨sharedTag ++ (st.1.graph.nodes.getD idx default).name, len, false⟩ :
        Derivation)]).length = st.1.graph.nodes.length + 1 := by
    simp
  refine ⟨_, hstep, ?_, ?_, ?_, ?_, ?_, ?_, ?_, rfl, ?_⟩
  · simp [subSize_length]
  · rw [subSize_getD_ne _ _ _ _ (by omega),
      subSize_getD_ne _ _ _ _ (by omega), getD_append_self]
  · simp [List.append_assoc]
  · rw [subSize_getD_ne _ _ _ _ hne,
      subSize_getD_eq _ _ _ (by rw [hinnerlen]; omega),
      getD_append_left_nd _ _ _ hn]
    exact wsub_eq_sub _ _ hlen1 hs1
  · rw [subSize_getD_eq _ _ _ (by rw [subSize_length, hinnerlen]; omega),
      subSize_getD_ne _ _ _ _ hne.symm,
      getD_append_left_nd _ _ _ hidx]
    exact wsub_eq_sub _ _ hlen2 hs2
  · rw [subSize_getD_ne _ _ _ _ hne,
      subSize_getD_eq _ _ _ (by rw [hinnerlen]; omega),
      getD_append_left_nd _ _ _ hn]
  · rw [subSize_getD_eq _ _ _ (by rw [subSize_length, hinnerlen]; omega),
      subSize_getD_ne _ _ _ _ hne.symm,
      getD_append_left_nd _ _ _ hidx]
  · simp [owUpd]

/-- State just before a second sighting: node 1 is being walked and inode 7
is owned once by node 0. -/
def exSt1 : RefState :=
  (exDi1, fun i => if i = 7 then some (Owner.one 0) else none)

/-- Closed instance of second_sighting_spec. -/
theorem second_sighting_spec_witness :
    ∃ st2, processInode exSt1 1 ⟨FileTy.file, 7, Except.ok 10⟩ =
        Except.ok st2 ∧
      st2.1.graph.nodes.length = exSt1.1.graph.nodes.length + 1 ∧
      st2.1.graph.nodes.getD exSt1.1.graph.nodes.length default =
        ⟨sharedTag ++ (exSt1.1.graph.nodes.getD 1 default).name, 10, false⟩ ∧
      st2.1.graph.edges = exSt1.1.graph.edges ++
        [(0, exSt1.1.graph.nodes.length), (1, exSt1.1.graph.nodes.length)] ∧
      (st2.1.graph.nodes.getD 0 default).size =
        (exSt1.1.graph.nodes.getD 0 default).size - 10 ∧
      (st2.1.graph.nodes.getD 1 default).size =
        (exSt1.1.graph.nodes.getD 1 default).size - 10 ∧
      (st2.1.graph.nodes.getD 0 default).path =
        (exSt1.1.graph.nodes.getD 0 default).path ∧
      (st2.1.graph.nodes.getD 1 default).path =
        (exSt1.1.graph.nodes.getD 1 default).path ∧
      st2.1.roots = exSt1.1.roots ∧
      st2.2 7 = some (Owner.several exSt1.1.graph.nodes.length) :=
  second_sighting_spec exSt1 1 0 10 ⟨FileTy.file, 7, Except.ok 10⟩
    (by decide) (by decide) (by decide) (by decide) (by decide)
    (by decide) (by decide) (by decide) (by decide)

/-! ## Claim C7: error propagation without rollback -/

theorem foldAbortS_cons {σ α : Type} (f : σ → α → σ × Option Nat)
    (s : σ) (a : α) (l : List α) :
    foldAbortS f s (a :: l) =
      match f s a with
      | (s2, none) => foldAbortS f s2 l
      | (s2, some e) => (s2, some e) := rfl

theorem foldAbortS_append {σ α : Type} (f : σ → α → σ × Option Nat)
    (s : σ) (l1 l2 : List α) (s1 : σ)
    (h : foldAbortS f s l1 = (s1, none)) :
    foldAbortS f s (l1 ++ l2) = foldAbortS f s1 l2 := by
  induction l1 generalizing s with
  | nil =>
    unfold foldAbortS at h
    injection h with h1 _
    rw [List.nil_append, h1]
  | cons a l ih =>
    rw [List.cons_append, foldAbortS_cons]
    rw [foldAbortS_cons] at h
    rcases hfa : f s a with ⟨s2, _ | e⟩
    · rw [hfa] at h
      simp only at h ⊢
      exact ih s2 h
    · rw [hfa] at h
      simp only at h
      exact absurd (congrArg Prod.snd h) (by simp)

/-- Claim C7: when processing reaches node idx after a clean prefix and
node idx's processing fails with error e leaving state st2 (which keeps
every mutation made before the failing filesystem access), the whole pass
stops there: the remaining nodes are never visited, the error is returned
to the caller, and the returned graph state is exactly st2 — no rollback. -/
theorem refine_error_propagation (fs : FS) (di : DepInfos)
    (l1 l2 : List Nat) (st1 st2 : RefState) (idx e : Nat)
    (hsplit : List.range di.graph.nodes.length = l1 ++ idx :: l2)
    (hpre : foldAbortS (refineNode fs) (di, fun _ => none) l1 = (st1, none))
    (hfail : refineNode fs st1 idx = (st2, some e)) :
    refineCore fs di = (st2, some e) ∧
    refine_optimized_store fs di = (st2.1, some e) := by
  have h1 : refineCore fs di = foldAbortS (refineNode fs) st1 (idx :: l2) := by
    unfold refineCore
    rw [hsplit]
    exact foldAbortS_append _ _ _ _ _ hpre
  have h2 : foldAbortS (refineNode fs) st1 (idx :: l2) = (st2, some e) := by
    unfold foldAbortS
    rw [hfail]
  have h3 : refineCore fs di = (st2, some e) := h1.trans h2
  refine ⟨h3, ?_⟩
  unfold refine_optimized_store
  rw [h3]

/-- Node 0 holds two hardlinked copies of one file (so its processing
mutates the graph); node 1's symlink-metadata read fails with code 42. -/
def exDi7 : DepInfos :=
  ⟨⟨[⟨strBytes "/s/aa-foo", 100, false⟩,
     ⟨strBytes "/s/bb-bar", 50, false⟩], []⟩, []⟩

/-- Filesystem for exDi7. -/
def exFS7 : FS :=
  ⟨fun p => if p = strBytes "/s/bb-bar" then Except.error 42
    else Except.ok false,
   fun p =>
     if p = strBytes "/s/aa-foo" then
       [Except.ok ⟨FileTy.file, 7, Except.ok 10⟩,
        Except.ok ⟨FileTy.file, 7, Except.ok 10⟩]
     else [],
   fun _ => Except.error 0⟩

/-- Closed instance of refine_error_propagation: node 0's mutations (size
80 after two 10-byte subtractions, a new shared node, two new edges) are
kept while error 42 from node 1 is surfaced. -/
theorem refine_error_propagation_witness :
    (refineCore exFS7 exDi7 =
      ((foldAbortS (refineNode exFS7) (exDi7, fun _ => none) [0]).1, some 42) ∧
     refine_optimized_store exFS7 exDi7 =
      ((foldAbortS (refineNode exFS7) (exDi7, fun _ => none) [0]).1.1, some 42)) ∧
    ((refine_optimized_store exFS7 exDi7).1.graph.nodes.getD 0 default).size = 80 ∧
    (refine_optimized_store exFS7 exDi7).1.graph.nodes.length = 3 ∧
    (refine_optimized_store exFS7 exDi7).1.graph.edges = [(0, 2), (0, 2)] :=
  ⟨by
    have h := refine_error_propagation exFS7 exDi7 [0] []
      (foldAbortS (refineNode exFS7) (exDi7, fun _ => none) [0]).1
      ((refineNode exFS7
        (foldAbortS (refineNode exFS7) (exDi7, fun _ => none) [0]).1 1).1)
      1 42 (by decide) rfl rfl
    exact h,
   by decide, by decide, by decide⟩

/-! ## Claim C9: refinement preserves the roots invariant -/

theorem subSize_is_root (l : List Derivation) (i len j : Nat) :
    ((subSize l i len).getD j default).is_root =
      (l.getD j default).is_root := by
  by_cases h : j = i
  · subst h
    by_cases h2 : j < l.length
    · rw [subSize_getD_eq _ _ _ h2]
    · rw [subSize_getD_oob _ _ _ (le_of_not_lt h2)]
  · rw [subSize_getD_ne _ _ _ _ h]

theorem subSize_path (l : List Derivation) (i len j : Nat) :
    ((subSize l i len).getD j default).path = (l.getD j default).path := by
  by_cases h : j = i
  · subst h
    by_cases h2 : j < l.length
    · rw [subSize_getD_eq _ _ _ h2]
    · rw [subSize_getD_oob _ _ _ (le_of_not_lt h2)]
  · rw [subSize_getD_ne _ _ _ _ h]

/-- Structural invariant preserved by every step of the refinement pass:
roots untouched, old nodes keep their flag, synthetic nodes are non-root
and have an incoming edge, new edges point at synthetic nodes, and the
inode map only mentions valid node indices. -/
structure LInv (di0 : DepInfos) (st : RefState) : Prop where
  rootsEq : st.1.roots = di0.roots
  lenGe : di0.graph.nodes.length ≤ st.1.graph.nodes.length
  oldRoot : ∀ v, v < di0.graph.nodes.length →
    (st.1.graph.nodes.getD v default).is_root =
      (di0.graph.nodes.getD v default).is_root
  newRoot : ∀ j, di0.graph.nodes.length ≤ j → j < st.1.graph.nodes.length →
    (st.1.graph.nodes.getD j default).is_root = false
  newInc : ∀ j, di0.graph.nodes.length ≤ j → j < st.1.graph.nodes.length →
    ∃ e ∈ st.1.graph.edges, e.2 = j
  edgesOld : ∀ e ∈ st.1.graph.edges, e ∈ di0.graph.edges ∨
    di0.graph.nodes.length ≤ e.2
  sevGe : ∀ ino s, st.2 ino = some (Owner.several s) →
    di0.graph.nodes.length ≤ s ∧ s < st.1.graph.nodes.length
  oneLt : ∀ ino v, st.2 ino = some (Owner.one v) →
    v < di0.graph.nodes.length

theorem processInode_LInv (di0 : DepInfos) (st : RefState) (idx : Nat)
    (entry : WalkEntry) (st2 : RefState)
    (hidx : idx < di0.graph.nodes.length)
    (h : processInode st idx entry = Except.ok st2)
    (hinv : LInv di0 st) : LInv di0 st2 := by
  unfold processInode at h
  rcases how : st.2 entry.ino with _ | v
  · rw [how] at h
    simp only at h
    injection h with h
    subst h
    refine ⟨hinv.rootsEq, hinv.lenGe, hinv.oldRoot, hinv.newRoot,
      hinv.newInc, hinv.edgesOld, ?_, ?_⟩
    · intro ino s hs
      simp only [owUpd] at hs
      by_cases hi : ino = entry.ino
      · rw [if_pos hi] at hs
        exact absurd hs (by simp)
      · rw [if_neg hi] at hs
        exact hinv.sevGe ino s hs
    · intro ino v hs
      simp only [owUpd] at hs
      by_cases hi : ino = entry.ino
      · rw [if_pos hi] at hs
        injection hs with hs
        injection hs with hs
        subst hs
        exact hidx
      · rw [if_neg hi] at hs
        exact hinv.oneLt ino v hs
  · rw [how] at h
    rcases hmeta : entry.meta with e | len
    · rw [hmeta] at h
      simp only at h
      exact absurd h (by simp)
    · rw [hmeta] at h
      rcases v with n | n
      · simp only at h
        injection h with h
        subst h
        have hn : n < di0.graph.nodes.length := hinv.oneLt _ _ how
        have hL := hinv.lenGe
        have hlen2 : ∀ x : Derivation,
            (st.1.graph.nodes ++ [x]).length = st.1.graph.nodes.length + 1 := by
          intro x; simp
        refine ⟨hinv.rootsEq, ?_, ?_, ?_, ?_, ?_, ?_, ?_⟩
        · simp only [subSize_length, hlen2]
          omega
        · intro v hv
          simp only [subSize_is_root]
          rw [getD_append_left_nd _ _ _ (by omega)]
          exact hinv.oldRoot v hv
        · intro j hj1 hj2
          simp only [subSize_length, hlen2] at hj2
          simp only [subSize_is_root]
          by_cases hjl : j < st.1.graph.nodes.length
          · rw [getD_append_left_nd _ _ _ hjl]
            exact hinv.newRoot j hj1 hjl
          · have hje : j = st.1.graph.nodes.length := by omega
            rw [hje, getD_append_self]
        · intro j hj1 hj2
          simp only [subSize_length, hlen2] at hj2
          by_cases hjl : j < st.1.graph.nodes.length
          · obtain ⟨e, he, he2⟩ := hinv.newInc j hj1 hjl
            exact ⟨e, by simp [he], he2⟩
          · have hje : j = st.1.graph.nodes.length := by omega
            exact ⟨(n, st.1.graph.nodes.length), by simp, hje.symm⟩
        · intro e he
          simp only [List.mem_append, List.mem_singleton] at he
          rcases he with (he | he) | he
          · exact hinv.edgesOld e he
          · subst he
            right
            exact hL
          · subst he
            right
            exact hL
        · intro ino s hs
          simp only [owUpd] at hs
          by_cases hi : ino = entry.ino
          · rw [if_pos hi] at hs
            injection hs with hs
            injection hs with hs
            subst hs
            simp only [subSize_length, hlen2]
            omega
          · rw [if_neg hi] at hs
            have := hinv.sevGe ino s hs
            simp only [subSize_length, hlen2]
            omega
        · intro ino v hs
          simp only [owUpd] at hs
          by_cases hi : ino = entry.ino
          · rw [if_pos hi] at hs
            exact absurd hs (by simp)
          · rw [if_neg hi] at hs
            exact hinv.oneLt ino v hs
      · simp only at h
        injection h with h
        subst h
        refine ⟨hinv.rootsEq, ?_, ?_, ?_, ?_, ?_, ?_, hinv.oneLt⟩
        · simp only [subSize_length]
          exact hinv.lenGe
        · intro v hv
          simp only [subSize_is_root]
          exact hinv.oldRoot v hv
        · intro j hj1 hj2
          simp only [subSize_length] at hj2
          simp only [subSize_is_root]
          exact hinv.newRoot j hj1 hj2
        · intro j hj1 hj2
          simp only [subSize_length] at hj2
          obtain ⟨e, he, he2⟩ := hinv.newInc j hj1 hj2
          exact ⟨e, by simp [he], he2⟩
        · intro e he
          simp only [List.mem_append, List.mem_singleton] at he
          rcases he with he | he
          · exact hinv.edgesOld e he
          · subst he
            right
            exact (hinv.sevGe _ _ how).1
        · intro ino s hs
          simp only [subSize_length]
          exact hinv.sevGe ino s hs

theorem walkStep_LInv (di0 : DepInfos) (idx : Nat)
    (hidx : idx < di0.graph.nodes.length)
    (st : RefState) (ent : Except Nat WalkEntry) (st2 : RefState)
    (h : walkStep idx st ent = Except.ok st2) (hinv : LInv di0 st) :
    LInv di0 st2 := by
  unfold walkStep at h
  rcases ent with e | entry
  · simp only at h
    exact absurd h (by simp)
  · simp only at h
    by_cases hf : entry.ftype = FileTy.file
    · rw [if_pos hf] at h
      exact processInode_LInv di0 st idx entry st2 hidx h hinv
    · rw [if_neg hf] at h
      injection h with h
      subst h
      exact hinv

theorem foldAbortE_inv {σ α : Type} (P : σ → Prop) (f : σ → α → Except Nat σ)
    (hf : ∀ s a s2, P s → f s a = Except.ok s2 → P s2) :
    ∀ (l : List α) (s : σ), P s → P (foldAbortE f s l).1 := by
  intro l
  induction l with
  | nil => intro s hs; exact hs
  | cons a l ih =>
    intro s hs
    unfold foldAbortE
    rcases hfa : f s a with e | s2
    · exact hs
    · exact ih s2 (hf s a s2 hs hfa)

theorem foldAbortS_inv_mem {σ α : Type} (P : σ → Prop)
    (f : σ → α → σ × Option Nat) :
    ∀ (l : List α), (∀ s a, a ∈ l → P s → P (f s a).1) →
      ∀ (s : σ), P s → P (foldAbortS f s l).1 := by
  intro l
  induction l with
  | nil => intro _ s hs; exact hs
  | cons a l ih =>
    intro hf s hs
    rw [foldAbortS_cons]
    rcases hfa : f s a with ⟨s2, _ | e⟩
    · simp only
      refine ih (fun s a ha hP => hf s a (List.mem_cons_of_mem _ ha) hP) s2 ?_
      have := hf s a (List.mem_cons_self a l) hs
      rw [hfa] at this
      exact this
    · simp only
      have := hf s a (List.mem_cons_self a l) hs
      rw [hfa] at this
      exact this

theorem refineNode_LInv (fs : FS) (di0 : DepInfos) (idx : Nat)
    (hidx : idx < di0.graph.nodes.length) (st : RefState)
    (hinv : LInv di0 st) : LInv di0 (refineNode fs st idx).1 := by
  unfold refineNode
  by_cases hr : (st.1.graph.nodes.getD idx default).is_root
  · rw [if_pos hr]
    exact hinv
  · rw [if_neg hr]
    rcases hp : (st.1.graph.nodes.getD idx default).path_as_os_str with _ | p
    · exact hinv
    · simp only
      rcases hsm : fs.symlinkMeta p with e | b
      · exact hinv
      · rcases b with _ | _
        · simp only
          exact foldAbortE_inv (LInv di0) (walkStep idx)
            (fun s a s2 hs ha => walkStep_LInv di0 idx hidx s a s2 ha hs)
            (fs.walk p) st hinv
        · exact hinv

theorem refineCore_LInv (fs : FS) (di : DepInfos) :
    LInv di (refineCore fs di).1 := by
  unfold refineCore
  refine foldAbortS_inv_mem (LInv di) (refineNode fs) _ ?_ _ ?_
  · intro s a ha hP
    exact refineNode_LInv fs di a (List.mem_range.mp ha) s hP
  · exact ⟨rfl, le_refl _, fun v _ => rfl,
      fun j h1 h2 => absurd (lt_of_le_of_lt h1 h2) (lt_irrefl _),
      fun j h1 h2 => absurd (lt_of_le_of_lt h1 h2) (lt_irrefl _),
      fun e he => Or.inl he,
      fun ino s hs => by exact absurd hs (by simp),
      fun ino v hs => by exact absurd hs (by simp)⟩

/-- Claim C9: refine_optimized_store never modifies the roots vector, never
changes the root flag of a pre-existing node, gives every added node
is_root = false and an incoming edge; hence the coherence invariant is
preserved. -/
theorem refine_preserves_coherence (fs : FS) (di : DepInfos) :
    (refine_optimized_store fs di).1.roots = di.roots ∧
    (∀ v, v < di.graph.nodes.length →
      ((refine_optimized_store fs di).1.graph.nodes.getD v default).is_root =
        (di.graph.nodes.getD v default).is_root) ∧
    (∀ j, di.graph.nodes.length ≤ j →
      j < (refine_optimized_store fs di).1.graph.nodes.length →
      ((refine_optimized_store fs di).1.graph.nodes.getD j default).is_root
        = false ∧
      ∃ e ∈ (refine_optimized_store fs di).1.graph.edges, e.2 = j) ∧
    (di.roots_attr_coherent →
      (refine_optimized_store fs di).1.roots_attr_coherent) := by
  have hL := refineCore_LInv fs di
  have hre : refine_optimized_store fs di =
      ((refineCore fs di).1.1, (refineCore fs di).2) := rfl
  rw [hre]
  refine ⟨hL.rootsEq, hL.oldRoot, fun j h1 h2 => ⟨hL.newRoot j h1 h2,
    hL.newInc j h1 h2⟩, ?_⟩
  rintro ⟨hc1, hc2⟩
  have hflag : rootFlagged (refineCore fs di).1.1.graph = rootFlagged di.graph := by
    ext i
    unfold rootFlagged
    simp only [Finset.mem_filter, Finset.mem_range]
    constructor
    · rintro ⟨hi, hroot⟩
      by_cases hiK : i < di.graph.nodes.length
      · exact ⟨hiK, (hL.oldRoot i hiK) ▸ hroot⟩
      · rw [hL.newRoot i (by omega) hi] at hroot
        exact absurd hroot (by simp)
    · rintro ⟨hi, hroot⟩
      exact ⟨by have := hL.lenGe; omega, (hL.oldRoot i hi).symm ▸ hroot⟩
  refine ⟨?_, ?_⟩
  · rw [hL.rootsEq, hflag]
    exact hc1
  · rw [hflag]
    intro r hr
    have hrK : r < di.graph.nodes.length := by
      have := hr
      unfold rootFlagged at this
      simp only [Finset.mem_filter, Finset.mem_range] at this
      exact this.1
    have hno := hc2 hr
    unfold noIncoming at hno ⊢
    simp only [Finset.mem_filter, Finset.mem_range] at hno ⊢
    refine ⟨by have := hL.lenGe; omega, ?_⟩
    intro e he
    rcases hL.edgesOld e he with h | h
    · exact hno.2 e h
    · omega

/-- A rooted variant of the exDi1 scenario for exercising coherence. -/
def exDi9 : DepInfos :=
  ⟨⟨[⟨strBytes "/r", 0, true⟩,
     ⟨strBytes "/s/aa-foo", 100, false⟩,
     ⟨strBytes "/s/bb-bar", 100, false⟩], [(0, 1), (0, 2)]⟩, [0]⟩

/-- Closed instance of refine_preserves_coherence: a coherent DepInfos stays
coherent through a refinement pass that adds a shared node. -/
theorem refine_preserves_coherence_witness :
    exDi9.roots_attr_coherent ∧
    (refine_optimized_store exFS1 exDi9).1.roots_attr_coherent :=
  ⟨by decide, (refine_preserves_coherence exFS1 exDi9).2.2.2 (by decide)⟩

/-! ## Claims C5 and C6: store_is_optimised -/

/-- PathBuf::pop on an absolute path: drop the last component; fails on the
bare root. -/
def parentDir (p : List Nat) : Option (List Nat) :=
  match memrchr 47 p with
  | none => none
  | some i => if p.length ≤ 1 then none else some (if i = 0 then [47] else p.take i)

/-- PathBuf::push of a relative component. -/
def pathJoin (par name : List Nat) : List Nat :=
  if par.getLast? = some 47 then par ++ name else par ++ 47 :: name

/-- The sampling loop of store_is_optimised over
read_dir()?.map(Some).take(10).chain(once(None)): a None sentinel yields
"unknown"; a failed entry, file_type or metadata read propagates its error;
a non-regular entry yields "unknown"; nlink > 1 yields "yes" at once;
an exhausted iterator yields "no". -/
def checkEntries : List (Option (Except Nat DirEntry)) → Except Nat (Option Bool)
  | [] => Except.ok (some false)
  | none :: _ => Except.ok none
  | some (Except.error e) :: _ => Except.error e
  | some (Except.ok ent) :: rest =>
    match ent.ftype with
    | Except.error e => Except.error e
    | Except.ok ty =>
      if ty = FileTy.file then
        match ent.nlink with
        | Except.error e => Except.error e
        | Except.ok nl => if 1 < nl then Except.ok (some true) else checkEntries rest
      else Except.ok none

/-- pub fn store_is_optimised. The outer Option models the
`.expect("root without child")` panic (none = panic); the Except is the
io::Result; the inner Option is the three-valued answer. -/
def store_is_optimised (fs : FS) (di : DepInfos) :
    Option (Except Nat (Option Bool)) :=
  match di.roots.head? with
  | none => some (Except.ok none)
  | some root =>
    match (di.graph.neighbors root).head? with
    | none => none
    | some drv =>
      match (di.graph.nodes.getD drv default).path_as_os_str with
      | none => some (Except.ok none)
      | some x =>
        match parentDir x with
        | none => some (Except.ok none)
        | some par =>
          some (match fs.readDir (pathJoin par (strBytes ".links")) with
            | Except.error e => Except.error e
            | Except.ok entries =>
              checkEntries ((entries.take 10).map some ++ [none]))

/-- Directory with one regular entry of hardlink count 1, under the store
directory of exDi9. -/
def exFS5 : FS :=
  ⟨fun _ => Except.ok false, fun _ => [],
   fun p =>
     if p = strBytes "/s/.links" then
       Except.ok [Except.ok ⟨Except.ok FileTy.file, Except.ok 1⟩]
     else Except.error 9⟩

/-- Claim C5 evaluated on the code: a .links directory with a single regular
entry of hardlink count 1 makes store_is_optimised return unknown
(Ok(None)), not "no" (Ok(Some(false))) as the claim states: the sampling
iterator map(Some).take(10).chain(once(None)) always reaches the None
sentinel when at most 10 entries exist, so the loop returns Ok(None) before
the final Ok(Some(false)) — which is unreachable. -/
theorem store_small_links_returns_unknown :
    store_is_optimised exFS5 exDi9 = some (Except.ok none) ∧
    store_is_optimised exFS5 exDi9 ≠ some (Except.ok (some false)) := by
  decide

/-- An entry of the sampled prefix that lets the loop continue: a regular
file whose type and metadata reads succeed with hardlink count at most 1. -/
def preOk (d : Except Nat DirEntry) : Bool :=
  match d with
  | Except.error _ => false
  | Except.ok dent =>
    match dent.ftype, dent.nlink with
    | Except.ok ty, Except.ok nl1 => ty == FileTy.file && decide (nl1 ≤ 1)
    | _, _ => false

theorem checkEntries_step (ft : FileTy) (nlv : Nat)
    (L : List (Option (Except Nat DirEntry))) :
    checkEntries (some (Except.ok ⟨Except.ok ft, Except.ok nlv⟩) :: L) =
      if ft = FileTy.file then
        (if 1 < nlv then Except.ok (some true) else checkEntries L)
      else Except.ok none := rfl

theorem checkEntries_reaches (pre : List (Except Nat DirEntry))
    (hpre : ∀ d ∈ pre, preOk d = true) (ent : DirEntry)
    (hty : ent.ftype = Except.ok FileTy.file) (nl : Nat)
    (hnl : ent.nlink = Except.ok nl) (h1 : 1 < nl)
    (rest : List (Option (Except Nat DirEntry))) :
    checkEntries (pre.map some ++ (some (Except.ok ent) :: rest)) =
      Except.ok (some true) := by
  have hent : (Except.ok ent : Except Nat DirEntry) =
      Except.ok ⟨Except.ok FileTy.file, Except.ok nl⟩ := by
    rw [show ent = (⟨ent.ftype, ent.nlink⟩ : DirEntry) from rfl, hty, hnl]
  induction pre with
  | nil =>
    rw [List.map_nil, List.nil_append, hent, checkEntries_step, if_pos rfl,
      if_pos h1]
  | cons d pre ih =>
    have hd := hpre d (List.mem_cons_self d pre)
    rcases d with e | dent
    · simp [preOk] at hd
    · rcases dent with ⟨ft, nlk⟩
      rcases ft with e | ty
      · simp [preOk] at hd
      · rcases nlk with e | nl1
        · simp [preOk] at hd
        · simp only [preOk, Bool.and_eq_true, beq_iff_eq,
            decide_eq_true_eq] at hd
          obtain ⟨hdty, hdnl⟩ := hd
          subst hdty
          rw [List.map_cons, List.cons_append, checkEntries_step, if_pos rfl,
            if_neg (by omega)]
          exact ih (fun d hd2 => hpre d (List.mem_cons_of_mem _ hd2))

/-- Claim C6 (amended): if among the first at-most-10 sampled entries of the
.links directory there is a regular file with hardlink count above 1, and
every sampled entry before it is a regular file whose reads succeed with
hardlink count 1, then store_is_optimised returns "yes" immediately — the
entries after it (and anything beyond the ten) are never examined. -/
theorem store_nlink_yes (fs : FS) (di : DepInfos) (root drv : Nat)
    (x par : List Nat) (entries pre : List (Except Nat DirEntry))
    (ent : DirEntry) (tail : List (Except Nat DirEntry)) (nl : Nat)
    (hroot : di.roots.head? = some root)
    (hdrv : (di.graph.neighbors root).head? = some drv)
    (hx : (di.graph.nodes.getD drv default).path_as_os_str = some x)
    (hpar : parentDir x = some par)
    (hrd : fs.readDir (pathJoin par (strBytes ".links")) = Except.ok entries)
    (hsplit : entries = pre ++ Except.ok ent :: tail)
    (hlen : pre.length < 10)
    (hpre : ∀ d ∈ pre, preOk d = true)
    (hty : ent.ftype = Except.ok FileTy.file)
    (hnl : ent.nlink = Except.ok nl) (h1 : 1 < nl) :
    store_is_optimised fs di = some (Except.ok (some true)) := by
  unfold store_is_optimised
  rw [hroot]
  simp only
  rw [hdrv]
  simp only
  rw [hx]
  simp only
  rw [hpar]
  simp only
  rw [hrd]
  simp only
  obtain ⟨m, hm⟩ : ∃ m, 10 - pre.length = m + 1 :=
    ⟨10 - pre.length - 1, by omega⟩
  have htake : entries.take 10 =
      pre ++ Except.ok ent :: tail.take m := by
    rw [hsplit, List.take_append_eq_append_take,
      List.take_of_length_le (le_of_lt hlen), hm, List.take_succ_cons]
  rw [htake, List.map_append, List.map_cons, List.append_assoc,
    List.cons_append]
  rw [checkEntries_reaches pre hpre ent hty nl hnl h1]

/-- Two entries in .links: a directory first, then a regular file with
hardlink count 5. -/
def exFS6 : FS :=
  ⟨fun _ => Except.ok false, fun _ => [],
   fun p =>
     if p = strBytes "/s/.links" then
       Except.ok [Except.ok ⟨Except.ok FileTy.dir, Except.ok 1⟩,
                  Except.ok ⟨Except.ok FileTy.file, Except.ok 5⟩]
     else Except.error 9⟩

/-- Concrete run refuting Claim C6 as stated: the second sampled entry is a
regular file with hardlink count 5 > 1, yet store_is_optimised returns
unknown, because the first sampled entry is a directory and the loop stops
there with Ok(None) before examining the qualifying entry. -/
theorem store_nlink_yes_cx :
    store_is_optimised exFS6 exDi9 = some (Except.ok none) ∧
    store_is_optimised exFS6 exDi9 ≠ some (Except.ok (some true)) := by
  decide

/-- Regular nlink-1 entry followed by a regular nlink-5 entry. -/
def exFS6b : FS :=
  ⟨fun _ => Except.ok false, fun _ => [],
   fun p =>
     if p = strBytes "/s/.links" then
       Except.ok [Except.ok ⟨Except.ok FileTy.file, Except.ok 1⟩,
                  Except.ok ⟨Except.ok FileTy.file, Except.ok 5⟩]
     else Except.error 9⟩

/-- Closed instance of store_nlink_yes. -/
theorem store_nlink_yes_witness :
    store_is_optimised exFS6b exDi9 = some (Except.ok (some true)) :=
  store_nlink_yes exFS6b exDi9 0 2 (strBytes "/s/bb-bar") (strBytes "/s")
    [Except.ok ⟨Except.ok FileTy.file, Except.ok 1⟩,
     Except.ok ⟨Except.ok FileTy.file, Except.ok 5⟩]
    [Except.ok ⟨Except.ok FileTy.file, Except.ok 1⟩]
    ⟨Except.ok FileTy.file, Except.ok 5⟩ [] 5
    (by decide) (by decide) (by decide) (by decide) (by decide) (by decide)
    (by decide) (by decide) (by decide) (by decide) (by decide)

/-! ## Event-level view of the refinement pass (for claims C2 and C10) -/

/-- One regular-file sighting during the pass: the walked node's index, the
file's inode, and its byte length. -/
structure Event where
  idx : Nat
  ino : Nat
  len : Nat
deriving DecidableEq

/-- The byte length carried by a successful metadata read. -/
def metaLen : Except Nat Nat → Nat
  | Except.ok l => l
  | Except.error _ => 0

/-- The sighting produced by one walk entry, if any. -/
def entryEvent (idx : Nat) (ent : Except Nat WalkEntry) : Option Event :=
  match ent with
  | Except.error _ => none
  | Except.ok entry =>
    if entry.ftype = FileTy.file then some ⟨idx, entry.ino, metaLen entry.meta⟩
    else none

/-- The sightings produced by walking one node, mirroring the skip rules of
refine_optimized_store. -/
def nodeEvents (fs : FS) (di : DepInfos) (idx : Nat) : List Event :=
  if (di.graph.nodes.getD idx default).is_root then []
  else
    match (di.graph.nodes.getD idx default).path_as_os_str with
    | none => []
    | some p =>
      if fs.symlinkMeta p = Except.ok false then
        (fs.walk p).filterMap (entryEvent idx)
      else []

/-- All sightings of one pass, in processing order. -/
def allEvents (fs : FS) (di : DepInfos) : List Event :=
  (List.range di.graph.nodes.length).flatMap (nodeEvents fs di)

/-- The pure state transition of one sighting (processInode with the
metadata read already resolved). -/
def stepEv (st : RefState) (ev : Event) : RefState :=
  match st.2 ev.ino with
  | none => (st.1, owUpd st.2 ev.ino (Owner.one ev.idx))
  | some (Owner.one n) =>
    (⟨⟨subSize (subSize (st.1.graph.nodes ++
          [⟨sharedTag ++ (st.1.graph.nodes.getD ev.idx default).name,
            ev.len, false⟩]) n ev.len) ev.idx ev.len,
       (st.1.graph.edges ++ [(n, st.1.graph.nodes.length)]) ++
         [(ev.idx, st.1.graph.nodes.length)]⟩, st.1.roots⟩,
     owUpd st.2 ev.ino (Owner.several st.1.graph.nodes.length))
  | some (Owner.several n) =>
    (⟨⟨subSize st.1.graph.nodes ev.idx ev.len,
       st.1.graph.edges ++ [(ev.idx, n)]⟩, st.1.roots⟩, st.2)

/-- Fold of stepEv over a sighting list. -/
def applyEvents (st : RefState) (evs : List Event) : RefState :=
  evs.foldl stepEv st

/-- A walk entry on which the pass cannot fail: either an entry whose type
is not regular-file, or one whose metadata read succeeds. -/
def okEntryB (ent : Except Nat WalkEntry) : Bool :=
  match ent with
  | Except.error _ => false
  | Except.ok e => !(e.ftype == FileTy.file) || e.meta.isOk

/-- A filesystem on which the pass completes without error for the given
graph: symlink metadata reads succeed, and walks of non-skipped nodes yield
only ok entries whose file entries have readable metadata. -/
def cleanFS (fs : FS) (di : DepInfos) : Prop :=
  ∀ idx, idx < di.graph.nodes.length →
    (di.graph.nodes.getD idx default).is_root = false →
    ∀ p, (di.graph.nodes.getD idx default).path_as_os_str = some p →
      (fs.symlinkMeta p).isOk = true ∧
      (fs.symlinkMeta p = Except.ok false →
        ∀ ent ∈ fs.walk p, okEntryB ent = true)

instance (fs : FS) (di : DepInfos) : Decidable (cleanFS fs di) := by
  unfold cleanFS; infer_instance

/-- Node-identity facts preserved by every event: the graph only grows, and
the original nodes keep their path and root flag. -/
def NodesStable (di0 : DepInfos) (st : RefState) : Prop :=
  di0.graph.nodes.length ≤ st.1.graph.nodes.length ∧
  ∀ v, v < di0.graph.nodes.length →
    (st.1.graph.nodes.getD v default).path =
      (di0.graph.nodes.getD v default).path ∧
    (st.1.graph.nodes.getD v default).is_root =
      (di0.graph.nodes.getD v default).is_root

theorem stepEv_stable (di0 : DepInfos) (st : RefState) (ev : Event)
    (h : NodesStable di0 st) : NodesStable di0 (stepEv st ev) := by
  obtain ⟨hlen, hfields⟩ := h
  unfold stepEv
  rcases st.2 ev.ino with _ | (n | n)
  · exact ⟨hlen, hfields⟩
  · simp only
    constructor
    · simp only [subSize_length, List.length_append]
      omega
    · intro v hv
      have hv2 : v < st.1.graph.nodes.length := by omega
      simp only [subSize_path, subSize_is_root]
      rw [getD_append_left_nd _ _ _ hv2]
      exact hfields v hv
  · simp only
    constructor
    · simp only [subSize_length]
      exact hlen
    · intro v hv
      simp only [subSize_path, subSize_is_root]
      exact hfields v hv

theorem applyEvents_stable (di0 : DepInfos) (evs : List Event) :
    ∀ (st : RefState), NodesStable di0 st →
      NodesStable di0 (applyEvents st evs) := by
  induction evs with
  | nil => intro st h; exact h
  | cons ev evs ih =>
    intro st h
    exact ih (stepEv st ev) (stepEv_stable di0 st ev h)

theorem applyEvents_append (st : RefState) (l1 l2 : List Event) :
    applyEvents st (l1 ++ l2) = applyEvents (applyEvents st l1) l2 :=
  List.foldl_append stepEv st l1 l2

theorem processInode_eq_stepEv (st : RefState) (idx : Nat) (e : WalkEntry)
    (len : Nat) (hmeta : e.meta = Except.ok len) :
    processInode st idx e = Except.ok (stepEv st ⟨idx, e.ino, len⟩) := by
  unfold processInode stepEv
  simp only
  rcases st.2 e.ino with _ | (n | n)
  · rfl
  · rw [hmeta]
  · rw [hmeta]

theorem walk_fold_clean (idx : Nat) (l : List (Except Nat WalkEntry))
    (hok : ∀ ent ∈ l, okEntryB ent = true) (st : RefState) :
    foldAbortE (walkStep idx) st l =
      (applyEvents st (l.filterMap (entryEvent idx)), none) := by
  induction l generalizing st with
  | nil => rfl
  | cons ent l ih =>
    have hent := hok ent (List.mem_cons_self ent l)
    rcases ent with e | e
    · simp [okEntryB] at hent
    · unfold foldAbortE
      by_cases hf : e.ftype = FileTy.file
      · have hmok : e.meta.isOk = true := by
          simp only [okEntryB, hf, beq_self_eq_true, Bool.not_true,
            Bool.false_or] at hent
          exact hent
        rcases hmeta : e.meta with err | len
        · rw [hmeta] at hmok
          simp [Except.isOk, Except.toBool] at hmok
        · have hp := processInode_eq_stepEv st idx e len hmeta
          rw [show walkStep idx st (Except.ok e) = processInode st idx e
            from by unfold walkStep; simp only [if_pos hf], hp]
          simp only
          rw [ih (fun a ha => hok a (List.mem_cons_of_mem _ ha)) (stepEv st ⟨idx, e.ino, len⟩)]
          rw [show (Except.ok e :: l).filterMap (entryEvent idx) =
            ⟨idx, e.ino, len⟩ :: l.filterMap (entryEvent idx) from by
              rw [List.filterMap_cons]
              simp only [entryEvent, if_pos hf, metaLen, hmeta]]
          rfl
      · rw [show walkStep idx st (Except.ok e) = Except.ok st
          from by unfold walkStep; simp only [if_neg hf]]
        simp only
        rw [ih (fun a ha => hok a (List.mem_cons_of_mem _ ha)) st]
        rw [show (Except.ok e :: l).filterMap (entryEvent idx) =
          l.filterMap (entryEvent idx) from by
            rw [List.filterMap_cons]
            simp only [entryEvent, if_neg hf]]

theorem path_as_os_str_congr (d d2 : Derivation) (h : d.path = d2.path) :
    d.path_as_os_str = d2.path_as_os_str := by
  unfold Derivation.path_as_os_str
  rw [h]

theorem refineNode_clean (fs : FS) (di0 : DepInfos) (idx : Nat)
    (hidx : idx < di0.graph.nodes.length) (hclean : cleanFS fs di0)
    (st : RefState) (hst : NodesStable di0 st) :
    refineNode fs st idx = (applyEvents st (nodeEvents fs di0 idx), none) := by
  obtain ⟨hpath, hroot⟩ := hst.2 idx hidx
  unfold refineNode nodeEvents
  simp only
  rw [hroot, path_as_os_str_congr _ _ hpath]
  by_cases hr : (di0.graph.nodes.getD idx default).is_root
  · rw [if_pos hr, if_pos hr]
    rfl
  · rw [if_neg hr, if_neg hr]
    rcases hp : (di0.graph.nodes.getD idx default).path_as_os_str with _ | p
    · rfl
    · simp only
      obtain ⟨hsm, hwalk⟩ := hclean idx hidx (by
        rcases h2 : (di0.graph.nodes.getD idx default).is_root with _ | _
        · rfl
        · exact absurd h2 hr) p hp
      rcases hb : fs.symlinkMeta p with e | b
      · simp [hb, Except.isOk, Except.toBool] at hsm
      · rcases b with _ | _
        · exact walk_fold_clean idx (fs.walk p) (hwalk hb) st
        · rfl

theorem refineCore_clean_aux (fs : FS) (di0 : DepInfos)
    (hclean : cleanFS fs di0) :
    ∀ (l : List Nat), (∀ a ∈ l, a < di0.graph.nodes.length) →
      ∀ (st : RefState), NodesStable di0 st →
        foldAbortS (refineNode fs) st l =
          (applyEvents st (l.flatMap (nodeEvents fs di0)), none) := by
  intro l
  induction l with
  | nil => intro _ st _; rfl
  | cons a l ih =>
    intro hmem st hst
    rw [foldAbortS_cons,
      refineNode_clean fs di0 a (hmem a (List.mem_cons_self a l)) hclean st hst]
    simp only
    rw [ih (fun x hx => hmem x (List.mem_cons_of_mem _ hx))
      (applyEvents st (nodeEvents fs di0 a))
      (applyEvents_stable di0 _ st hst)]
    rw [List.flatMap_cons, applyEvents_append]

/-- On a clean filesystem the pass succeeds, and its final state is the pure
fold of stepEv over the sighting sequence. -/
theorem refineCore_clean (fs : FS) (di : DepInfos) (hclean : cleanFS fs di) :
    refineCore fs di =
      (applyEvents (di, fun _ => none) (allEvents fs di), none) := by
  unfold refineCore allEvents
  exact refineCore_clean_aux fs di hclean (List.range di.graph.nodes.length)
    (fun a ha => List.mem_range.mp ha) (di, fun _ => none)
    ⟨le_refl _, fun v _ => ⟨rfl, rfl⟩⟩

/-! ## Sighting counts and size bookkeeping -/

/-- Number of sightings of an inode in a sighting list. -/
def cntIno (p : List Event) (ino : Nat) : Nat :=
  p.countP (fun ev => ev.ino == ino)

/-- Number of sightings of an inode attributed to node v. -/
def cntBy (p : List Event) (v ino : Nat) : Nat :=
  p.countP (fun ev => ev.idx == v && ev.ino == ino)

/-- Number of edges from v to s in an edge list. -/
def edgeCntL (edges : List (Nat × Nat)) (v s : Nat) : Nat :=
  edges.countP (fun e => e.1 == v && e.2 == s)

/-- Number of edges from v to s in the graph. -/
def edgeCnt (g : DepGraph) (v s : Nat) : Nat := edgeCntL g.edges v s

/-- Whether a map entry is in the consolidated Owner::Several state. -/
def isSeveralB : Option Owner → Bool
  | some (Owner.several _) => true
  | _ => false

/-- The bytes a sighting has charged to node v: its length when the sighting
belongs to v and its inode is consolidated under the given map. -/
def chargeW (ow : OwnerMap) (v : Nat) (ev : Event) : Nat :=
  if ev.idx = v ∧ isSeveralB (ow ev.ino) = true then ev.len else 0

/-- Total bytes charged to node v by the processed sightings p under map
ow. -/
def chargedLen (ow : OwnerMap) (p : List Event) (v : Nat) : Nat :=
  (p.map (chargeW ow v)).sum

/-- Total bytes of v's sightings whose inode is shared (seen at least twice
over the whole pass): the amount the pass will subtract from v. -/
def budget (evs : List Event) (v : Nat) : Nat :=
  (evs.map (fun ev =>
    if ev.idx = v ∧ 2 ≤ cntIno evs ev.ino then ev.len else 0)).sum

theorem cntIno_append (p q : List Event) (ino : Nat) :
    cntIno (p ++ q) ino = cntIno p ino + cntIno q ino :=
  List.countP_append _ _ _

theorem cntIno_singleton (ev : Event) (ino : Nat) :
    cntIno [ev] ino = if ev.ino = ino then 1 else 0 := by
  unfold cntIno
  by_cases h : ev.ino = ino <;> simp [List.countP_cons, h]

theorem cntBy_append (p q : List Event) (v ino : Nat) :
    cntBy (p ++ q) v ino = cntBy p v ino + cntBy q v ino :=
  List.countP_append _ _ _

theorem cntBy_singleton (ev : Event) (v ino : Nat) :
    cntBy [ev] v ino = if ev.idx = v ∧ ev.ino = ino then 1 else 0 := by
  unfold cntBy
  by_cases h1 : ev.idx = v <;> by_cases h2 : ev.ino = ino <;>
    simp [List.countP_cons, h1, h2]

theorem cntIno_eq_length_filter (p : List Event) (ino : Nat) :
    cntIno p ino = (p.filter (fun ev => ev.ino == ino)).length :=
  List.countP_eq_length_filter _ _

theorem cntBy_via_filter (p : List Event) (v ino : Nat) :
    cntBy p v ino =
      (p.filter (fun ev => ev.ino == ino)).countP (fun ev => ev.idx == v) := by
  unfold cntBy
  rw [List.countP_filter]

theorem edgeCntL_append (l1 l2 : List (Nat × Nat)) (v s : Nat) :
    edgeCntL (l1 ++ l2) v s = edgeCntL l1 v s + edgeCntL l2 v s :=
  List.countP_append _ _ _

theorem edgeCntL_single (a b v s : Nat) :
    edgeCntL [(a, b)] v s = if a = v ∧ b = s then 1 else 0 := by
  unfold edgeCntL
  by_cases h1 : a = v <;> by_cases h2 : b = s <;>
    simp [List.countP_cons, h1, h2]

theorem edgeCntL_zero (l : List (Nat × Nat)) (s : Nat)
    (h : ∀ e ∈ l, e.2 ≠ s) (v : Nat) : edgeCntL l v s = 0 := by
  unfold edgeCntL
  rw [List.countP_eq_zero]
  intro e he
  simp only [Bool.and_eq_true, beq_iff_eq, not_and]
  intro _
  exact h e he

theorem chargedLen_append_single (ow : OwnerMap) (p : List Event)
    (ev : Event) (v : Nat) :
    chargedLen ow (p ++ [ev]) v = chargedLen ow p v + chargeW ow v ev := by
  unfold chargedLen
  rw [List.map_append, List.sum_append]
  simp

theorem chargedLen_update (ow : OwnerMap) (i0 : Nat) (w : Owner)
    (p : List Event) (v : Nat) :
    chargedLen (owUpd ow i0 w) p v +
      ((p.filter (fun ev => ev.ino == i0)).map (chargeW ow v)).sum =
    chargedLen ow p v +
      ((p.filter (fun ev => ev.ino == i0)).map (chargeW (owUpd ow i0 w) v)).sum := by
  induction p with
  | nil => rfl
  | cons a p ih =>
    unfold chargedLen at ih ⊢
    rw [List.map_cons, List.sum_cons, List.map_cons, List.sum_cons]
    by_cases ha : a.ino = i0
    · rw [List.filter_cons_of_pos (by simp [ha]), List.map_cons,
        List.sum_cons, List.map_cons, List.sum_cons]
      omega
    · rw [List.filter_cons_of_neg (by simp [ha])]
      have hcw : chargeW (owUpd ow i0 w) v a = chargeW ow v a := by
        unfold chargeW owUpd
        rw [if_neg ha]
      rw [hcw]
      omega

theorem chargedLen_vacant (ow : OwnerMap) (i0 : Nat) (w : Owner)
    (p : List Event) (v : Nat)
    (hfil : p.filter (fun ev => ev.ino == i0) = []) :
    chargedLen (owUpd ow i0 w) p v = chargedLen ow p v := by
  have h := chargedLen_update ow i0 w p v
  rw [hfil] at h
  simpa using h

theorem chargedLen_promote (ow : OwnerMap) (i0 L : Nat) (p : List Event)
    (v : Nat) (e0 : Event)
    (hfil : p.filter (fun ev => ev.ino == i0) = [e0])
    (hone : isSeveralB (ow i0) = false) (he0 : e0.ino = i0) :
    chargedLen (owUpd ow i0 (Owner.several L)) p v =
      chargedLen ow p v + (if e0.idx = v then e0.len else 0) := by
  have h := chargedLen_update ow i0 (Owner.several L) p v
  rw [hfil] at h
  simp only [List.map_cons, List.map_nil, List.sum_cons, List.sum_nil] at h
  have h1 : chargeW ow v e0 = 0 := by
    unfold chargeW
    rw [if_neg]
    rintro ⟨_, hc⟩
    rw [he0, hone] at hc
    exact Bool.false_ne_true hc
  have h2 : chargeW (owUpd ow i0 (Owner.several L)) v e0 =
      if e0.idx = v then e0.len else 0 := by
    unfold chargeW owUpd
    rw [he0]
    simp [isSeveralB]
  omega

theorem chargedLen_le_budget (evs p rest : List Event) (hpre : evs = p ++ rest)
    (ow : OwnerMap)
    (hsev : ∀ ev ∈ p, isSeveralB (ow ev.ino) = true → 2 ≤ cntIno evs ev.ino)
    (v : Nat) : chargedLen ow p v ≤ budget evs v := by
  have h1 : chargedLen ow p v ≤
      (p.map (fun ev =>
        if ev.idx = v ∧ 2 ≤ cntIno evs ev.ino then ev.len else 0)).sum := by
    apply List.sum_le_sum
    intro ev hev
    unfold chargeW
    by_cases hc : ev.idx = v ∧ isSeveralB (ow ev.ino) = true
    · rw [if_pos hc, if_pos ⟨hc.1, hsev ev hev hc.2⟩]
    · rw [if_neg hc]
      exact Nat.zero_le _
  refine le_trans h1 ?_
  unfold budget
  rw [hpre, List.map_append, List.sum_append]
  exact Nat.le_add_right _ _

/-! ## The refinement pass invariant -/

/-- The inductive invariant of the event fold, tying the state reached after
the prefix p of the pass's sighting sequence evs to the original graph di0.
lenOf gives each inode's byte length. -/
structure RInv (di0 : DepInfos) (lenOf : Nat → Nat) (evs : List Event)
    (st : RefState) (p : List Event) : Prop where
  stable : NodesStable di0 st
  prefixEq : ∃ rest, evs = p ++ rest
  sizeEq : ∀ v, v < di0.graph.nodes.length →
    (st.1.graph.nodes.getD v default).size + chargedLen st.2 p v =
      (di0.graph.nodes.getD v default).size
  ownNone : ∀ ino, st.2 ino = none → cntIno p ino = 0
  ownOne : ∀ ino n, st.2 ino = some (Owner.one n) →
    p.filter (fun ev => ev.ino == ino) = [⟨n, ino, lenOf ino⟩]
  ownSev : ∀ ino s, st.2 ino = some (Owner.several s) →
    2 ≤ cntIno p ino ∧ di0.graph.nodes.length ≤ s ∧
    s < st.1.graph.nodes.length ∧
    (st.1.graph.nodes.getD s default).size = lenOf ino ∧
    (st.1.graph.nodes.getD s default).is_root = false ∧
    ∀ v, edgeCnt st.1.graph v s = cntBy p v ino
  sevInj : ∀ i1 i2 s, st.2 i1 = some (Owner.several s) →
    st.2 i2 = some (Owner.several s) → i1 = i2
  sevSurj : ∀ j, di0.graph.nodes.length ≤ j → j < st.1.graph.nodes.length →
    ∃ ino, st.2 ino = some (Owner.several j)
  edgesB : ∀ e ∈ st.1.graph.edges, e.1 < st.1.graph.nodes.length ∧
    e.2 < st.1.graph.nodes.length

theorem owUpd_eq (m : OwnerMap) (k : Nat) (w : Owner) (i : Nat) :
    owUpd m k w i = if i = k then some w else m i := rfl

theorem rinv_hsev (di0 : DepInfos) (lenOf : Nat → Nat) (evs : List Event)
    (st : RefState) (p : List Event)
    (hinv : RInv di0 lenOf evs st p) :
    ∀ ev ∈ p, isSeveralB (st.2 ev.ino) = true → 2 ≤ cntIno evs ev.ino := by
  intro ev hev hsev
  rcases hw : st.2 ev.ino with _ | (n | s)
  · rw [hw] at hsev
    simp [isSeveralB] at hsev
  · rw [hw] at hsev
    simp [isSeveralB] at hsev
  · obtain ⟨h2, _⟩ := hinv.ownSev _ _ hw
    obtain ⟨rest, hrest⟩ := hinv.prefixEq
    rw [hrest, cntIno_append]
    omega

theorem rinv_step_vacant (di0 : DepInfos) (lenOf : Nat → Nat)
    (evs : List Event)
    (Hc : ∀ e ∈ evs, e.idx < di0.graph.nodes.length ∧ e.len = lenOf e.ino)
    (st : RefState) (p : List Event) (ev : Event) (rest : List Event)
    (hpre : evs = p ++ ev :: rest)
    (hinv : RInv di0 lenOf evs st p)
    (how : st.2 ev.ino = none) :
    RInv di0 lenOf evs (st.1, owUpd st.2 ev.ino (Owner.one ev.idx))
      (p ++ [ev]) := by
  have hev : ev ∈ evs := by
    rw [hpre]
    exact List.mem_append_right _ (List.mem_cons_self ev rest)
  have hfil0 : p.filter (fun e => e.ino == ev.ino) = [] := by
    have h0 := hinv.ownNone _ how
    rw [cntIno_eq_length_filter] at h0
    exact List.length_eq_zero.mp h0
  refine ⟨hinv.stable, ⟨rest, by rw [hpre, List.append_assoc]; rfl⟩,
    ?_, ?_, ?_, ?_, ?_, ?_, hinv.edgesB⟩
  · intro v hv
    simp only
    rw [chargedLen_append_single]
    have hc0 : chargeW (owUpd st.2 ev.ino (Owner.one ev.idx)) v ev = 0 := by
      unfold chargeW owUpd
      simp [isSeveralB]
    have hcp : chargedLen (owUpd st.2 ev.ino (Owner.one ev.idx)) p v =
        chargedLen st.2 p v := chargedLen_vacant _ _ _ _ _ hfil0
    have := hinv.sizeEq v hv
    omega
  · intro ino h
    simp only at h
    rw [owUpd_eq] at h
    by_cases hi : ino = ev.ino
    · rw [if_pos hi] at h
      exact absurd h (by simp)
    · rw [if_neg hi] at h
      rw [cntIno_append, hinv.ownNone ino h, cntIno_singleton,
        if_neg (fun hc => hi hc.symm)]
  · intro ino n h
    simp only at h
    rw [owUpd_eq] at h
    by_cases hi : ino = ev.ino
    · rw [if_pos hi] at h
      injection h with h
      injection h with h
      obtain ⟨_, hlen⟩ := Hc ev hev
      subst hi
      rw [List.filter_append, hfil0, List.nil_append]
      rw [List.filter_cons, if_pos (by simp), List.filter_nil]
      have : ev = ⟨n, ev.ino, lenOf ev.ino⟩ := by
        cases ev with
        | mk a b c =>
          simp only at h hlen ⊢
          simp only [Event.mk.injEq]
          exact ⟨h, trivial, hlen⟩
      rw [this]
    · rw [if_neg hi] at h
      rw [List.filter_append, hinv.ownOne ino n h]
      rw [List.filter_cons, if_neg (by simp; exact fun hc => hi hc.symm),
        List.filter_nil, List.append_nil]
  · intro ino s h
    simp only at h ⊢
    rw [owUpd_eq] at h
    by_cases hi : ino = ev.ino
    · rw [if_pos hi] at h
      exact absurd h (by simp)
    · rw [if_neg hi] at h
      obtain ⟨h1, h2, h3, h4, h5, h6⟩ := hinv.ownSev ino s h
      refine ⟨?_, h2, h3, h4, h5, ?_⟩
      · rw [cntIno_append, cntIno_singleton, if_neg (fun hc => hi hc.symm)]
        omega
      · intro v
        rw [cntBy_append, cntBy_singleton,
          if_neg (fun hc => hi hc.2.symm), h6 v]
        omega
  · intro i1 i2 s h1 h2
    simp only at h1 h2
    rw [owUpd_eq] at h1 h2
    by_cases hi1 : i1 = ev.ino
    · rw [if_pos hi1] at h1
      exact absurd h1 (by simp)
    · rw [if_neg hi1] at h1
      by_cases hi2 : i2 = ev.ino
      · rw [if_pos hi2] at h2
        exact absurd h2 (by simp)
      · rw [if_neg hi2] at h2
        exact hinv.sevInj i1 i2 s h1 h2
  · intro j hj1 hj2
    simp only at hj2 ⊢
    obtain ⟨ino, hino⟩ := hinv.sevSurj j hj1 hj2
    refine ⟨ino, ?_⟩
    rw [owUpd_eq, if_neg (fun hc => by rw [hc, how] at hino; cases hino)]
    exact hino

theorem rinv_step_several (di0 : DepInfos) (lenOf : Nat → Nat)
    (evs : List Event)
    (Hc : ∀ e ∈ evs, e.idx < di0.graph.nodes.length ∧ e.len = lenOf e.ino)
    (Hb : ∀ v, v < di0.graph.nodes.length →
      (di0.graph.nodes.getD v default).size < U64 ∧
      budget evs v ≤ (di0.graph.nodes.getD v default).size)
    (st : RefState) (p : List Event) (ev : Event) (rest : List Event)
    (hpre : evs = p ++ ev :: rest)
    (hinv : RInv di0 lenOf evs st p)
    (s0 : Nat) (how : st.2 ev.ino = some (Owner.several s0)) :
    RInv di0 lenOf evs
      (⟨⟨subSize st.1.graph.nodes ev.idx ev.len,
         st.1.graph.edges ++ [(ev.idx, s0)]⟩, st.1.roots⟩, st.2)
      (p ++ [ev]) := by
  have hev : ev ∈ evs := by
    rw [hpre]
    exact List.mem_append_right _ (List.mem_cons_self ev rest)
  obtain ⟨hidx, hlen⟩ := Hc ev hev
  obtain ⟨o1, o2, o3, o4, o5, o6⟩ := hinv.ownSev _ _ how
  have hKL : di0.graph.nodes.length ≤ st.1.graph.nodes.length := hinv.stable.1
  have hcweq : ∀ v, chargeW st.2 v ev = if ev.idx = v then ev.len else 0 := by
    intro v
    unfold chargeW
    rw [how]
    simp [isSeveralB]
  have hsev2 : ∀ e ∈ p ++ [ev], isSeveralB (st.2 e.ino) = true →
      2 ≤ cntIno evs e.ino := by
    intro e he hs
    rcases List.mem_append.mp he with he | he
    · exact rinv_hsev di0 lenOf evs st p hinv e he hs
    · rw [List.mem_singleton.mp he]
      rw [hpre, cntIno_append]
      have : 1 ≤ cntIno (ev :: rest) ev.ino := by
        rw [show ev :: rest = [ev] ++ rest from rfl, cntIno_append,
          cntIno_singleton, if_pos rfl]
        omega
      omega
  have hble : ∀ v, chargedLen st.2 (p ++ [ev]) v ≤ budget evs v := by
    intro v
    exact chargedLen_le_budget evs (p ++ [ev]) rest
      (by rw [hpre, List.append_assoc]; rfl) st.2 hsev2 v
  refine ⟨⟨?_, ?_⟩, ⟨rest, by rw [hpre, List.append_assoc]; rfl⟩,
    ?_, ?_, ?_, ?_, hinv.sevInj, ?_, ?_⟩
  · simp only [subSize_length]
    exact hKL
  · intro v hv
    simp only [subSize_path, subSize_is_root]
    exact hinv.stable.2 v hv
  · intro v hv
    simp only
    rw [chargedLen_append_single, hcweq v]
    have hsz := hinv.sizeEq v hv
    simp only at hsz
    by_cases hvx : ev.idx = v
    · subst hvx
      rw [if_pos rfl]
      rw [subSize_getD_eq _ _ _ (by omega)]
      simp only
      have hbnd := hble ev.idx
      rw [chargedLen_append_single, hcweq ev.idx, if_pos rfl] at hbnd
      obtain ⟨hU, hB⟩ := Hb ev.idx hidx
      rw [wsub_eq_sub _ _ (by omega) (by omega)]
      omega
    · rw [if_neg hvx, subSize_getD_ne _ _ _ _ (fun hc => hvx hc.symm)]
      omega
  · intro ino h
    simp only at h
    have hne : ino ≠ ev.ino := fun hc => by rw [hc, how] at h; cases h
    rw [cntIno_append, hinv.ownNone ino h, cntIno_singleton,
      if_neg (fun hc => hne hc.symm)]
  · intro ino n h
    simp only at h
    have hne : ino ≠ ev.ino := fun hc => by
      rw [hc, how] at h
      injection h with h
      cases h
    rw [List.filter_append, hinv.ownOne ino n h, List.filter_cons,
      if_neg (by simp; exact fun hc => hne hc.symm), List.filter_nil,
      List.append_nil]
  · intro ino s h
    simp only at h ⊢
    by_cases hi : ino = ev.ino
    · subst hi
      rw [how] at h
      injection h with h
      injection h with h
      subst h
      refine ⟨?_, o2, by simp only [subSize_length]; exact o3, ?_, ?_, ?_⟩
      · rw [cntIno_append, cntIno_singleton, if_pos rfl]
        omega
      · rw [subSize_getD_ne _ _ _ _ (by omega)]
        exact o4
      · rw [subSize_getD_ne _ _ _ _ (by omega)]
        exact o5
      · intro v
        show edgeCntL (st.1.graph.edges ++ [(ev.idx, s0)]) v s0 = _
        rw [edgeCntL_append, edgeCntL_single, cntBy_append, cntBy_singleton]
        have he := o6 v
        unfold edgeCnt at he
        by_cases hvx : ev.idx = v
        · rw [if_pos ⟨hvx, rfl⟩, if_pos ⟨hvx, rfl⟩, he]
        · rw [if_neg (fun hc => hvx hc.1), if_neg (fun hc => hvx hc.1), he]
    · have hss : st.2 ino = some (Owner.several s) := h
      obtain ⟨p1, p2, p3, p4, p5, p6⟩ := hinv.ownSev ino s hss
      have hs0 : s ≠ s0 := fun hc =>
        hi (hinv.sevInj ino ev.ino s0 (hc ▸ hss) how)
      refine ⟨?_, p2, by simp only [subSize_length]; exact p3, ?_, ?_, ?_⟩
      · rw [cntIno_append, cntIno_singleton,
          if_neg (fun hc => hi hc.symm)]
        omega
      · rw [subSize_getD_ne _ _ _ _ (by omega)]
        exact p4
      · rw [subSize_getD_ne _ _ _ _ (by omega)]
        exact p5
      · intro v
        show edgeCntL (st.1.graph.edges ++ [(ev.idx, s0)]) v s = _
        rw [edgeCntL_append, edgeCntL_single, cntBy_append, cntBy_singleton]
        have he := p6 v
        unfold edgeCnt at he
        rw [if_neg (fun hc => hs0 hc.2.symm),
          if_neg (fun hc => hi hc.2.symm), he]
  · intro j hj1 hj2
    simp only [subSize_length] at hj2
    exact hinv.sevSurj j hj1 hj2
  · intro e he
    simp only [subSize_length]
    simp only [List.mem_append, List.mem_singleton] at he
    rcases he with he | he
    · exact hinv.edgesB e he
    · subst he
      exact ⟨by omega, o3⟩

theorem wsub_twice (a b : Nat) (h : b + b ≤ a) (ha : a < U64) :
    wsub (wsub a b) b = a - (b + b) := by
  rw [wsub_eq_sub a b (by omega) ha, wsub_eq_sub _ _ (by omega) (by omega)]
  omega

theorem rinv_step_one (di0 : DepInfos) (lenOf : Nat → Nat) (evs : List Event)
    (Hc : ∀ e ∈ evs, e.idx < di0.graph.nodes.length ∧ e.len = lenOf e.ino)
    (Hb : ∀ v, v < di0.graph.nodes.length →
      (di0.graph.nodes.getD v default).size < U64 ∧
      budget evs v ≤ (di0.graph.nodes.getD v default).size)
    (st : RefState) (p : List Event) (ev : Event) (rest : List Event)
    (hpre : evs = p ++ ev :: rest)
    (hinv : RInv di0 lenOf evs st p)
    (n : Nat) (how : st.2 ev.ino = some (Owner.one n)) :
    RInv di0 lenOf evs
      (⟨⟨subSize (subSize (st.1.graph.nodes ++
            [⟨sharedTag ++ (st.1.graph.nodes.getD ev.idx default).name,
              ev.len, false⟩]) n ev.len) ev.idx ev.len,
         (st.1.graph.edges ++ [(n, st.1.graph.nodes.length)]) ++
           [(ev.idx, st.1.graph.nodes.length)]⟩, st.1.roots⟩,
       owUpd st.2 ev.ino (Owner.several st.1.graph.nodes.length))
      (p ++ [ev]) := by
  set NN : Derivation :=
    ⟨sharedTag ++ (st.1.graph.nodes.getD ev.idx default).name,
      ev.len, false⟩ with hNN
  have hev : ev ∈ evs := by
    rw [hpre]
    exact List.mem_append_right _ (List.mem_cons_self ev rest)
  obtain ⟨hidx, hlen⟩ := Hc ev hev
  have hfil := hinv.ownOne _ _ how
  have he0p : (⟨n, ev.ino, lenOf ev.ino⟩ : Event) ∈ p := by
    refine List.mem_of_mem_filter (p := fun e => e.ino == ev.ino) ?_
    rw [hfil]
    exact List.mem_singleton.mpr rfl
  have he0evs : (⟨n, ev.ino, lenOf ev.ino⟩ : Event) ∈ evs := by
    obtain ⟨r, hr⟩ := hinv.prefixEq
    rw [hr]
    exact List.mem_append_left _ he0p
  have hn : n < di0.graph.nodes.length := (Hc _ he0evs).1
  have hKL : di0.graph.nodes.length ≤ st.1.graph.nodes.length := hinv.stable.1
  have hcnt1 : cntIno p ev.ino = 1 := by
    rw [cntIno_eq_length_filter, hfil]
    rfl
  have hlenApp : (st.1.graph.nodes ++ [NN]).length =
      st.1.graph.nodes.length + 1 := by simp
  have hone : isSeveralB (st.2 ev.ino) = false := by rw [how]; rfl
  have hch1 : ∀ v,
      chargedLen (owUpd st.2 ev.ino (Owner.several st.1.graph.nodes.length)) p v =
        chargedLen st.2 p v + (if n = v then lenOf ev.ino else 0) := by
    intro v
    have h := chargedLen_promote st.2 ev.ino st.1.graph.nodes.length p v
      ⟨n, ev.ino, lenOf ev.ino⟩ hfil hone rfl
    simpa using h
  have hcw2 : ∀ v,
      chargeW (owUpd st.2 ev.ino (Owner.several st.1.graph.nodes.length)) v ev =
        if ev.idx = v then ev.len else 0 := by
    intro v
    unfold chargeW owUpd
    simp [isSeveralB]
  have hsev2 : ∀ e ∈ p ++ [ev],
      isSeveralB (owUpd st.2 ev.ino (Owner.several st.1.graph.nodes.length)
        e.ino) = true → 2 ≤ cntIno evs e.ino := by
    intro e he hs
    by_cases hei : e.ino = ev.ino
    · rw [hei, hpre, cntIno_append]
      have h2 : 1 ≤ cntIno (ev :: rest) ev.ino := by
        rw [show ev :: rest = [ev] ++ rest from rfl, cntIno_append,
          cntIno_singleton, if_pos rfl]
        omega
      omega
    · rw [owUpd_eq, if_neg hei] at hs
      rcases List.mem_append.mp he with h | h
      · exact rinv_hsev di0 lenOf evs st p hinv e h hs
      · exact absurd (by rw [List.mem_singleton.mp h]) hei
  have hble : ∀ v,
      chargedLen (owUpd st.2 ev.ino (Owner.several st.1.graph.nodes.length))
        (p ++ [ev]) v ≤ budget evs v := by
    intro v
    exact chargedLen_le_budget evs (p ++ [ev]) rest
      (by rw [hpre, List.append_assoc]; rfl) _ hsev2 v
  have hgetL : (subSize (subSize (st.1.graph.nodes ++ [NN]) n ev.len)
      ev.idx ev.len).getD st.1.graph.nodes.length default = NN := by
    rw [subSize_getD_ne _ _ _ _ (by omega),
      subSize_getD_ne _ _ _ _ (by omega), getD_append_self]
  have hget_old : ∀ j, j ≠ n → j ≠ ev.idx → j < st.1.graph.nodes.length →
      (subSize (subSize (st.1.graph.nodes ++ [NN]) n ev.len)
        ev.idx ev.len).getD j default = st.1.graph.nodes.getD j default := by
    intro j h1 h2 h3
    rw [subSize_getD_ne _ _ _ _ h2, subSize_getD_ne _ _ _ _ h1,
      getD_append_left_nd _ _ _ h3]
  refine ⟨⟨?_, ?_⟩, ⟨rest, by rw [hpre, List.append_assoc]; rfl⟩,
    ?_, ?_, ?_, ?_, ?_, ?_, ?_⟩
  · simp only [subSize_length, hlenApp]
    omega
  · intro v hv
    simp only [subSize_path, subSize_is_root]
    rw [getD_append_left_nd _ _ _ (by omega)]
    exact hinv.stable.2 v hv
  · intro v hv
    simp only
    rw [chargedLen_append_single, hcw2 v, hch1 v]
    have hsz := hinv.sizeEq v hv
    have hbnd := hble v
    rw [chargedLen_append_single, hcw2 v, hch1 v] at hbnd
    obtain ⟨hU, hB⟩ := Hb v hv
    by_cases hnv : n = v
    · by_cases hxv : ev.idx = v
      · subst hnv
        rw [if_pos rfl] at hbnd ⊢
        rw [if_pos hxv] at hbnd ⊢
        rw [hxv, subSize_getD_eq _ _ _
          (by rw [subSize_length, hlenApp]; omega)]
        simp only
        rw [subSize_getD_eq _ _ _ (by rw [hlenApp]; omega)]
        simp only
        rw [getD_append_left_nd _ _ _ (by omega)]
        rw [← hlen] at hbnd ⊢
        rw [wsub_twice _ _ (by omega) (by omega)]
        omega
      · subst hnv
        rw [if_pos rfl] at hbnd ⊢
        rw [if_neg hxv] at hbnd ⊢
        rw [subSize_getD_ne _ _ _ _ (fun hc => hxv hc.symm),
          subSize_getD_eq _ _ _ (by rw [hlenApp]; omega)]
        simp only
        rw [getD_append_left_nd _ _ _ (by omega)]
        rw [← hlen] at hbnd ⊢
        rw [wsub_eq_sub _ _ (by omega) (by omega)]
        omega
    · by_cases hxv : ev.idx = v
      · subst hxv
        rw [if_neg hnv] at hbnd ⊢
        rw [if_pos rfl] at hbnd ⊢
        rw [subSize_getD_eq _ _ _ (by rw [subSize_length, hlenApp]; omega)]
        simp only
        rw [subSize_getD_ne _ _ _ _ (fun hc => hnv hc.symm),
          getD_append_left_nd _ _ _ (by omega)]
        rw [wsub_eq_sub _ _ (by omega) (by omega)]
        omega
      · rw [if_neg hnv] at hbnd ⊢
        rw [if_neg hxv] at hbnd ⊢
        rw [hget_old v (fun hc => hnv hc.symm) (fun hc => hxv hc.symm)
          (by omega)]
        omega
  · intro ino h
    simp only at h
    rw [owUpd_eq] at h
    by_cases hi : ino = ev.ino
    · rw [if_pos hi] at h
      exact absurd h (by simp)
    · rw [if_neg hi] at h
      rw [cntIno_append, hinv.ownNone ino h, cntIno_singleton,
        if_neg (fun hc => hi hc.symm)]
  · intro ino n2 h
    simp only at h
    rw [owUpd_eq] at h
    by_cases hi : ino = ev.ino
    · rw [if_pos hi] at h
      injection h with h
      cases h
    · rw [if_neg hi] at h
      rw [List.filter_append, hinv.ownOne ino n2 h, List.filter_cons,
        if_neg (by simp; exact fun hc => hi hc.symm), List.filter_nil,
        List.append_nil]
  · intro ino s h
    simp only at h ⊢
    rw [owUpd_eq] at h
    by_cases hi : ino = ev.ino
    · rw [if_pos hi] at h
      injection h with h
      injection h with h
      subst hi
      subst h
      refine ⟨?_, hKL, by rw [subSize_length, subSize_length, hlenApp]; omega,
        ?_, ?_, ?_⟩
      · rw [cntIno_append, hcnt1, cntIno_singleton, if_pos rfl]
      · rw [hgetL, hNN]
        exact hlen
      · rw [hgetL, hNN]
      · intro v
        show edgeCntL ((st.1.graph.edges ++ [(n, st.1.graph.nodes.length)]) ++
          [(ev.idx, st.1.graph.nodes.length)]) v st.1.graph.nodes.length = _
        rw [edgeCntL_append, edgeCntL_append, edgeCntL_single, edgeCntL_single,
          edgeCntL_zero st.1.graph.edges st.1.graph.nodes.length
            (fun e he => by have := hinv.edgesB e he; omega) v]
        rw [cntBy_append, cntBy_singleton, cntBy_via_filter, hfil]
        have hsingle : List.countP (fun e => e.idx == v)
            [(⟨n, ev.ino, lenOf ev.ino⟩ : Event)] =
            if n = v then 1 else 0 := by
          by_cases hnv : n = v <;> simp [List.countP_cons, hnv]
        rw [hsingle]
        have e1 : (if n = v ∧ st.1.graph.nodes.length = st.1.graph.nodes.length
            then 1 else 0) = if n = v then 1 else 0 := by
          by_cases hnv : n = v
          · rw [if_pos ⟨hnv, rfl⟩, if_pos hnv]
          · rw [if_neg (fun hc => hnv hc.1), if_neg hnv]
        have e2 : (if ev.idx = v ∧ st.1.graph.nodes.length =
            st.1.graph.nodes.length then 1 else 0) =
            if ev.idx = v then 1 else 0 := by
          by_cases hxv : ev.idx = v
          · rw [if_pos ⟨hxv, rfl⟩, if_pos hxv]
          · rw [if_neg (fun hc => hxv hc.1), if_neg hxv]
        have e3 : (if ev.idx = v ∧ ev.ino = ev.ino then 1 else 0) =
            if ev.idx = v then 1 else 0 := by
          by_cases hxv : ev.idx = v
          · rw [if_pos ⟨hxv, rfl⟩, if_pos hxv]
          · rw [if_neg (fun hc => hxv hc.1), if_neg hxv]
        rw [e1, e2, e3]
        omega
    · rw [if_neg hi] at h
      obtain ⟨p1, p2, p3, p4, p5, p6⟩ := hinv.ownSev ino s h
      refine ⟨?_, p2, by rw [subSize_length, subSize_length, hlenApp]; omega,
        ?_, ?_, ?_⟩
      · rw [cntIno_append, cntIno_singleton, if_neg (fun hc => hi hc.symm)]
        omega
      · rw [hget_old s (by omega) (by omega) p3]
        exact p4
      · rw [hget_old s (by omega) (by omega) p3]
        exact p5
      · intro v
        show edgeCntL ((st.1.graph.edges ++ [(n, st.1.graph.nodes.length)]) ++
          [(ev.idx, st.1.graph.nodes.length)]) v s = _
        rw [edgeCntL_append, edgeCntL_append, edgeCntL_single, edgeCntL_single]
        have hz1 : (if n = v ∧ st.1.graph.nodes.length = s then 1 else 0)
            = 0 := if_neg (fun hc => by omega)
        have hz2 : (if ev.idx = v ∧ st.1.graph.nodes.length = s then 1 else 0)
            = 0 := if_neg (fun hc => by omega)
        have hz3 : (if ev.idx = v ∧ ev.ino = ino then 1 else 0) = 0 :=
          if_neg (fun hc => hi hc.2.symm)
        rw [hz1, hz2, cntBy_append, cntBy_singleton, hz3]
        have he := p6 v
        unfold edgeCnt at he
        rw [he]
  · intro i1 i2 s h1 h2
    simp only at h1 h2
    rw [owUpd_eq] at h1 h2
    by_cases hi1 : i1 = ev.ino
    · by_cases hi2 : i2 = ev.ino
      · rw [hi1, hi2]
      · rw [if_pos hi1] at h1
        rw [if_neg hi2] at h2
        injection h1 with h1
        injection h1 with h1
        obtain ⟨_, _, h3, _⟩ := hinv.ownSev i2 s h2
        omega
    · by_cases hi2 : i2 = ev.ino
      · rw [if_neg hi1] at h1
        rw [if_pos hi2] at h2
        injection h2 with h2
        injection h2 with h2
        obtain ⟨_, _, h3, _⟩ := hinv.ownSev i1 s h1
        omega
      · rw [if_neg hi1] at h1
        rw [if_neg hi2] at h2
        exact hinv.sevInj i1 i2 s h1 h2
  · intro j hj1 hj2
    simp only [subSize_length, hlenApp] at hj2
    simp only
    by_cases hj : j = st.1.graph.nodes.length
    · refine ⟨ev.ino, ?_⟩
      rw [owUpd_eq, if_pos rfl, hj]
    · obtain ⟨ino, hino⟩ := hinv.sevSurj j hj1 (by omega)
      refine ⟨ino, ?_⟩
      rw [owUpd_eq, if_neg (fun hc => by rw [hc, how] at hino; cases hino)]
      exact hino
  · intro e he
    simp only [subSize_length, hlenApp]
    simp only [List.mem_append, List.mem_singleton] at he
    rcases he with (he | he) | he
    · have := hinv.edgesB e he
      omega
    · subst he
      constructor <;> omega
    · subst he
      constructor <;> omega

/-! ## Running the invariant over the whole pass -/

theorem nodeEvents_idx (fs : FS) (di : DepInfos) (idx : Nat)
    (ev : Event) (hev : ev ∈ nodeEvents fs di idx) : ev.idx = idx := by
  unfold nodeEvents at hev
  split at hev
  · cases hev
  · split at hev
    · cases hev
    · split at hev
      · rw [List.mem_filterMap] at hev
        obtain ⟨ent, _, hent⟩ := hev
        unfold entryEvent at hent
        split at hent
        · cases hent
        · split at hent
          · injection hent with hent
            rw [← hent]
          · cases hent
      · cases hev

theorem allEvents_idx_lt (fs : FS) (di : DepInfos) (ev : Event)
    (hev : ev ∈ allEvents fs di) : ev.idx < di.graph.nodes.length := by
  unfold allEvents at hev
  rw [List.mem_flatMap] at hev
  obtain ⟨idx, hidx, hev2⟩ := hev
  rw [nodeEvents_idx fs di idx ev hev2]
  exact List.mem_range.mp hidx

theorem rinv_init (di0 : DepInfos) (lenOf : Nat → Nat) (evs : List Event)
    (hwf : edgesWf di0.graph) :
    RInv di0 lenOf evs (di0, fun _ => none) [] := by
  refine ⟨⟨le_refl _, fun v _ => ⟨rfl, rfl⟩⟩, ⟨evs, rfl⟩,
    ?_, ?_, ?_, ?_, ?_, ?_, ?_⟩
  · intro v _
    simp [chargedLen]
  · intro ino _
    rfl
  · intro ino n h
    exact Option.noConfusion h
  · intro ino s h
    exact Option.noConfusion h
  · intro i1 i2 s h1 _
    exact Option.noConfusion h1
  · intro j hj1 hj2
    exact absurd (lt_of_le_of_lt hj1 hj2) (lt_irrefl _)
  · exact hwf

theorem rinv_run (di0 : DepInfos) (lenOf : Nat → Nat) (evs : List Event)
    (Hc : ∀ e ∈ evs, e.idx < di0.graph.nodes.length ∧ e.len = lenOf e.ino)
    (Hb : ∀ v, v < di0.graph.nodes.length →
      (di0.graph.nodes.getD v default).size < U64 ∧
      budget evs v ≤ (di0.graph.nodes.getD v default).size) :
    ∀ (q p : List Event) (st : RefState), evs = p ++ q →
      RInv di0 lenOf evs st p →
      RInv di0 lenOf evs (applyEvents st q) (p ++ q) := by
  intro q
  induction q with
  | nil =>
    intro p st _ hinv
    rw [List.append_nil]
    exact hinv
  | cons ev q ih =>
    intro p st hpre hinv
    have hstep : RInv di0 lenOf evs (stepEv st ev) (p ++ [ev]) := by
      rcases how : st.2 ev.ino with _ | (n | s0)
      · have h := rinv_step_vacant di0 lenOf evs Hc st p ev q hpre hinv how
        unfold stepEv
        rw [how]
        exact h
      · have h := rinv_step_one di0 lenOf evs Hc Hb st p ev q hpre hinv n how
        unfold stepEv
        rw [how]
        exact h
      · have h := rinv_step_several di0 lenOf evs Hc Hb st p ev q hpre hinv
          s0 how
        unfold stepEv
        rw [how]
        exact h
    have h2 := ih (p ++ [ev]) (stepEv st ev)
      (by rw [hpre, List.append_assoc]; rfl) hstep
    rw [List.append_assoc] at h2
    exact h2

theorem rinv_final_sev (di0 : DepInfos) (lenOf : Nat → Nat) (evs : List Event)
    (stF : RefState) (hinv : RInv di0 lenOf evs stF evs) (ino : Nat) :
    isSeveralB (stF.2 ino) = true ↔ 2 ≤ cntIno evs ino := by
  constructor
  · intro hs
    rcases hw : stF.2 ino with _ | (n | s)
    · rw [hw] at hs
      simp [isSeveralB] at hs
    · rw [hw] at hs
      simp [isSeveralB] at hs
    · exact (hinv.ownSev ino s hw).1
  · intro h2
    rcases hw : stF.2 ino with _ | (n | s)
    · have h0 := hinv.ownNone ino hw
      omega
    · have h1 := hinv.ownOne ino n hw
      rw [cntIno_eq_length_filter, h1] at h2
      simp at h2
    · rfl

theorem chargedLen_eq_budget (evs : List Event) (ow : OwnerMap)
    (hiff : ∀ ev ∈ evs,
      (isSeveralB (ow ev.ino) = true ↔ 2 ≤ cntIno evs ev.ino))
    (v : Nat) : chargedLen ow evs v = budget evs v := by
  unfold chargedLen budget
  congr 1
  apply List.map_congr_left
  intro ev hev
  unfold chargeW
  by_cases h1 : ev.idx = v
  · by_cases h2 : isSeveralB (ow ev.ino) = true
    · rw [if_pos ⟨h1, h2⟩, if_pos ⟨h1, (hiff ev hev).mp h2⟩]
    · rw [if_neg (fun hc => h2 hc.2),
        if_neg (fun hc => h2 ((hiff ev hev).mpr hc.2))]
  · rw [if_neg (fun hc => h1 hc.1), if_neg (fun hc => h1 hc.1)]

theorem refine_clean_final (fs : FS) (di : DepInfos) (lenOf : Nat → Nat)
    (hclean : cleanFS fs di) (hwf : edgesWf di.graph)
    (hlen : ∀ ev ∈ allEvents fs di, ev.len = lenOf ev.ino)
    (hbud : ∀ v, v < di.graph.nodes.length →
      (di.graph.nodes.getD v default).size < U64 ∧
      budget (allEvents fs di) v ≤ (di.graph.nodes.getD v default).size) :
    refineCore fs di =
      (applyEvents (di, fun _ => none) (allEvents fs di), none) ∧
    RInv di lenOf (allEvents fs di)
      (applyEvents (di, fun _ => none) (allEvents fs di))
      (allEvents fs di) := by
  have Hc : ∀ e ∈ allEvents fs di,
      e.idx < di.graph.nodes.length ∧ e.len = lenOf e.ino :=
    fun e he => ⟨allEvents_idx_lt fs di e he, hlen e he⟩
  refine ⟨refineCore_clean fs di hclean, ?_⟩
  have h := rinv_run di lenOf (allEvents fs di) Hc hbud (allEvents fs di) []
    (di, fun _ => none) rfl (rinv_init di lenOf (allEvents fs di) hwf)
  exact h

/-! ## Claims C2 and C10 -/

/-- Store with a single entry whose subtree holds two copies (two directory
entries, same inode) of one 10-byte hardlinked file. -/
def exDi2 : DepInfos :=
  ⟨⟨[⟨strBytes "/s/cc-baz", 100, false⟩], []⟩, []⟩

/-- Filesystem for exDi2: the walk of the entry yields two regular-file
entries with the same inode 5 and length 10. -/
def exFS2 : FS :=
  ⟨fun _ => Except.ok false,
   fun p =>
     if p = strBytes "/s/cc-baz" then
       [Except.ok ⟨FileTy.file, 5, Except.ok 10⟩,
        Except.ok ⟨FileTy.file, 5, Except.ok 10⟩]
     else [],
   fun _ => Except.error 0⟩

/-- Counterexample to Claim C2 as stated: when one store entry's subtree
holds TWO copies of the same hardlinked file, the pass adds one edge and
performs one subtraction per copy, so node 0 ends with two edges to the
shared node and its size lowered by 2 × 10 = 20, not "exactly one edge"
and "subtracted exactly once". -/
theorem shared_per_copy_cx :
    (refine_optimized_store exFS2 exDi2).2 = none ∧
    (refine_optimized_store exFS2 exDi2).1.graph.nodes.length = 2 ∧
    edgeCnt (refine_optimized_store exFS2 exDi2).1.graph 0 1 = 2 ∧
    ((refine_optimized_store exFS2 exDi2).1.graph.nodes.getD 0 default).size
      = 80 ∧
    ((refine_optimized_store exFS2 exDi2).1.graph.nodes.getD 1 default).size
      = 10 := by
  decide

/-- Claim C2, amended: after a clean pass in which every sighting of an
inode reports the same length and each node's size covers its budget of
shared bytes, the pass succeeds; every synthetic node carries the byte
length of its shared inode (set at creation, never mutated), is not a
root, and receives from each node v exactly one edge per copy of the
shared file in v's subtree; every inode sighted at least twice has such a
node; and each original node's size has been lowered by exactly its
budget: one length subtraction per copy of each shared file it holds. -/
theorem refine_shared_sizes (fs : FS) (di : DepInfos) (lenOf : Nat → Nat)
    (hclean : cleanFS fs di) (hwf : edgesWf di.graph)
    (hlen : ∀ ev ∈ allEvents fs di, ev.len = lenOf ev.ino)
    (hbud : ∀ v, v < di.graph.nodes.length →
      (di.graph.nodes.getD v default).size < U64 ∧
      budget (allEvents fs di) v ≤ (di.graph.nodes.getD v default).size) :
    (refine_optimized_store fs di).2 = none ∧
    (∀ j, di.graph.nodes.length ≤ j →
      j < (refine_optimized_store fs di).1.graph.nodes.length →
      ∃ ino, 2 ≤ cntIno (allEvents fs di) ino ∧
        ((refine_optimized_store fs di).1.graph.nodes.getD j default).size =
          lenOf ino ∧
        ((refine_optimized_store fs di).1.graph.nodes.getD j
          default).is_root = false ∧
        ∀ v, edgeCnt (refine_optimized_store fs di).1.graph v j =
          cntBy (allEvents fs di) v ino) ∧
    (∀ ino, 2 ≤ cntIno (allEvents fs di) ino →
      ∃ j, di.graph.nodes.length ≤ j ∧
        j < (refine_optimized_store fs di).1.graph.nodes.length ∧
        ∀ v, edgeCnt (refine_optimized_store fs di).1.graph v j =
          cntBy (allEvents fs di) v ino) ∧
    (∀ v, v < di.graph.nodes.length →
      ((refine_optimized_store fs di).1.graph.nodes.getD v default).size +
        budget (allEvents fs di) v =
      (di.graph.nodes.getD v default).size) := by
  obtain ⟨hcore, hinv⟩ := refine_clean_final fs di lenOf hclean hwf hlen hbud
  have hgr : (refine_optimized_store fs di).1 =
      (applyEvents (di, fun _ => none) (allEvents fs di)).1 := by
    unfold refine_optimized_store
    rw [hcore]
  have hsevf : ∀ ev ∈ allEvents fs di,
      (isSeveralB ((applyEvents (di, fun _ => none)
        (allEvents fs di)).2 ev.ino) = true ↔
        2 ≤ cntIno (allEvents fs di) ev.ino) :=
    fun ev _ => rinv_final_sev di lenOf _ _ hinv ev.ino
  refine ⟨?_, ?_, ?_, ?_⟩
  · unfold refine_optimized_store
    rw [hcore]
  · intro j hj1 hj2
    rw [hgr] at hj2 ⊢
    obtain ⟨ino, hino⟩ := hinv.sevSurj j hj1 hj2
    obtain ⟨c1, _, _, c4, c5, c6⟩ := hinv.ownSev ino j hino
    exact ⟨ino, c1, c4, c5, c6⟩
  · intro ino h2
    rw [hgr]
    rcases hw : (applyEvents (di, fun _ => none)
        (allEvents fs di)).2 ino with _ | (n | sx)
    · have h0 := hinv.ownNone ino hw
      omega
    · have h1 := hinv.ownOne ino n hw
      rw [cntIno_eq_length_filter, h1] at h2
      simp at h2
    · obtain ⟨_, c2, c3, _, _, c6⟩ := hinv.ownSev ino sx hw
      exact ⟨sx, c2, c3, c6⟩
  · intro v hv
    have hsz := hinv.sizeEq v hv
    have hcb := chargedLen_eq_budget (allEvents fs di) _ hsevf v
    rw [hgr, ← hcb]
    exact hsz

/-- Witness for refine_shared_sizes: the two-copy store exDi2/exFS2
satisfies every hypothesis and the pass succeeds on it. -/
theorem refine_shared_sizes_witness :
    cleanFS exFS2 exDi2 ∧ edgesWf exDi2.graph ∧
    (refine_optimized_store exFS2 exDi2).2 = none :=
  ⟨by decide, by decide,
    (refine_shared_sizes exFS2 exDi2 (fun _ => 10) (by decide) (by decide)
      (by decide) (by decide)).1⟩

/-- Claim C10: under the claim's own precondition — every node's size is
at least the total byte length of the shared-file copies the pass
subtracts from it (its budget) — and on a clean pass with consistent
per-inode lengths, no u64 subtraction wraps: every original node ends
with exactly its original size minus its budget, stated additively so the
identity entails that each subtraction stayed within the minuend. -/
theorem refine_no_underflow (fs : FS) (di : DepInfos) (lenOf : Nat → Nat)
    (hclean : cleanFS fs di) (hwf : edgesWf di.graph)
    (hlen : ∀ ev ∈ allEvents fs di, ev.len = lenOf ev.ino)
    (hbud : ∀ v, v < di.graph.nodes.length →
      (di.graph.nodes.getD v default).size < U64 ∧
      budget (allEvents fs di) v ≤ (di.graph.nodes.getD v default).size) :
    (refine_optimized_store fs di).2 = none ∧
    ∀ v, v < di.graph.nodes.length →
      ((refine_optimized_store fs di).1.graph.nodes.getD v default).size +
        budget (allEvents fs di) v =
      (di.graph.nodes.getD v default).size := by
  obtain ⟨hcore, hinv⟩ := refine_clean_final fs di lenOf hclean hwf hlen hbud
  have hgr : (refine_optimized_store fs di).1 =
      (applyEvents (di, fun _ => none) (allEvents fs di)).1 := by
    unfold refine_optimized_store
    rw [hcore]
  have hsevf : ∀ ev ∈ allEvents fs di,
      (isSeveralB ((applyEvents (di, fun _ => none)
        (allEvents fs di)).2 ev.ino) = true ↔
        2 ≤ cntIno (allEvents fs di) ev.ino) :=
    fun ev _ => rinv_final_sev di lenOf _ _ hinv ev.ino
  constructor
  · unfold refine_optimized_store
    rw [hcore]
  · intro v hv
    have hsz := hinv.sizeEq v hv
    have hcb := chargedLen_eq_budget (allEvents fs di) _ hsevf v
    rw [hgr, ← hcb]
    exact hsz

/-- Witness for refine_no_underflow: on the two-copy store the budget of
node 0 is 20 and its final size 80 restores the original 100. -/
theorem refine_no_underflow_witness :
    budget (allEvents exFS2 exDi2) 0 = 20 ∧
    ((refine_optimized_store exFS2 exDi2).1.graph.nodes.getD 0
      default).size + budget (allEvents exFS2 exDi2) 0 =
      (exDi2.graph.nodes.getD 0 default).size :=
  ⟨by decide,
    (refine_no_underflow exFS2 exDi2 (fun _ => 10) (by decide) (by decide)
      (by decide) (by decide)).2 0 (by decide)⟩

end NixDu
